import Mathlib

/-!
Verification of the `SubjectRefiner` mask-refinement pipeline
(`src/wasm/src/lib.rs`).

The Rust code is shallowly embedded: `f32` confidence values become exact
rationals (`ℚ`), `Vec<f32>` and `Vec<u8>` become `List ℚ` and `List Nat`
(row-major, index `y * width + x`), and the stateful `refine_mask` method
becomes a function from the processor state and its arguments to the new
state together with the returned mask.  Array reads that the Rust code
performs without a bounds check are embedded with `List.getD` defaults; a
separate `Option`-valued variant (`refine_maskChecked` below) performs
every read and write through a checked access and is proved to succeed,
which is the no-panic statement.
-/

set_option maxHeartbeats 4000000
set_option maxRecDepth 100000

namespace MaskRefine

/-- The processor state of `SubjectRefiner` (`src/wasm/src/lib.rs`, lines
9-16): grid dimensions, the bounded history of previously submitted masks
(oldest first), and the history bound. -/
structure SubjectRefiner where
  width : Nat
  height : Nat
  history : List (List ℚ)
  max_history : Nat

/-- The constructor `SubjectRefiner::new` (lines 20-28): empty history. -/
def mkRefiner (width height max_history : Nat) : SubjectRefiner :=
  ⟨width, height, [], max_history⟩

/-- Rust `as usize` applied to a (finite) `f32` value, modelled on `ℚ`:
truncation toward zero with saturation at zero for negative inputs.  (The
upper saturation bound `usize::MAX` is irrelevant here because converted
coordinates are only ever compared against the grid dimensions.) -/
def f32ToUsize (q : ℚ) : Nat := q.floor.toNat

/-- The integers `-r, ..., r`, in increasing order: the iteration space of
one Rust loop `for d in -r..=r`. -/
def intRange (r : Nat) : List Int :=
  (List.range (2 * r + 1)).map (fun (i : Nat) => (i : Int) - (r : Int))

/-- The offset pairs `(dx, dy)` visited by the nested Rust loops
`for dy in -r..=r { for dx in -r..=r { ... } }`, in visit order
(`dy` outer, `dx` inner). -/
def squareOffsets (r : Nat) : List (Int × Int) :=
  (intRange r).flatMap (fun dy => (intRange r).map (fun dx => (dx, dy)))

/-- One output pixel of `SubjectRefiner::erode` (lines 94-122).  `min_val`
starts at `1` and is forced to `0` by any disk-kernel offset that is
out of bounds or lands on a `0` pixel, so the pixel survives iff every
in-disk offset is in bounds and lands on a nonzero pixel. -/
def erodePix (w h : Nat) (img : List Nat) (radius : Nat) (x y : Int) : Nat :=
  if (squareOffsets radius).all (fun p =>
      if p.1 * p.1 + p.2 * p.2 ≤ (radius : Int) * (radius : Int) then
        let nx := x + p.1
        let ny := y + p.2
        decide (0 ≤ nx) && decide (nx < (w : Int)) &&
        decide (0 ≤ ny) && decide (ny < (h : Int)) &&
        decide (img.getD (ny * (w : Int) + nx).toNat 0 ≠ 0)
      else true)
  then 1 else 0

/-- `SubjectRefiner::erode` (lines 94-122).  The Rust loops write
`out[y*w + x]` exactly once for every `y < h`, `x < w` into a buffer of
`img.len()` entries; at every call site `img.len() = width * height`, so
the output is the row-major list of the per-pixel values. -/
def erode (w h : Nat) (img : List Nat) (radius : Nat) : List Nat :=
  (List.range (h * w)).map (fun i => erodePix w h img radius ((i % w : Nat) : Int) ((i / w : Nat) : Int))

/-- Row-major pixel index, as computed by the Rust code. -/
def pixIdx (w : Nat) (x y : Nat) : Nat := y * w + x

lemma pixIdx_lt {w h x y : Nat} (hx : x < w) (hy : y < h) : y * w + x < h * w := by
  calc y * w + x < y * w + w := by omega
    _ = (y + 1) * w := by ring
    _ ≤ h * w := Nat.mul_le_mul_right w (by omega)

lemma pixIdx_mod {w x y : Nat} (hx : x < w) : (y * w + x) % w = x := by
  rw [Nat.add_comm, Nat.add_mul_mod_self_right, Nat.mod_eq_of_lt hx]

lemma pixIdx_div {w x y : Nat} (hx : x < w) : (y * w + x) / w = y := by
  rw [Nat.add_comm, Nat.add_mul_div_right _ _ (by omega : 0 < w),
    Nat.div_eq_of_lt hx]
  omega

lemma mem_intRange {r : Nat} {a : Int} :
    a ∈ intRange r ↔ -(r : Int) ≤ a ∧ a ≤ (r : Int) := by
  unfold intRange
  constructor
  · intro h
    obtain ⟨i, hi, heq⟩ := List.mem_map.mp h
    rw [List.mem_range] at hi
    omega
  · intro h
    exact List.mem_map.mpr ⟨(a + r).toNat, List.mem_range.mpr (by omega), by omega⟩

lemma mem_squareOffsets {r : Nat} {p : Int × Int} :
    p ∈ squareOffsets r ↔
      -(r : Int) ≤ p.1 ∧ p.1 ≤ (r : Int) ∧ -(r : Int) ≤ p.2 ∧ p.2 ≤ (r : Int) := by
  unfold squareOffsets
  rcases p with ⟨dx, dy⟩
  constructor
  · intro h
    obtain ⟨a, ha, hmem⟩ := List.mem_flatMap.mp h
    obtain ⟨b, hb, heq⟩ := List.mem_map.mp hmem
    rw [mem_intRange] at ha hb
    cases heq
    exact ⟨hb.1, hb.2, ha.1, ha.2⟩
  · rintro ⟨h1, h2, h3, h4⟩
    exact List.mem_flatMap.mpr
      ⟨dy, mem_intRange.mpr ⟨h3, h4⟩, List.mem_map.mpr ⟨dx, mem_intRange.mpr ⟨h1, h2⟩, rfl⟩⟩

/-- Membership of an abs-bounded offset in the disk implies membership in
the square scan. -/
lemma disk_mem_squareOffsets {r : Nat} {dx dy : Int}
    (h : dx * dx + dy * dy ≤ (r : Int) * (r : Int)) :
    (dx, dy) ∈ squareOffsets r := by
  rw [mem_squareOffsets]
  have hx : dx * dx ≤ (r : Int) * (r : Int) := by nlinarith [mul_self_nonneg dy]
  have hy : dy * dy ≤ (r : Int) * (r : Int) := by nlinarith [mul_self_nonneg dx]
  have hx' : dx.natAbs ≤ r := by
    have := Int.natAbs_le_iff_mul_self_le (a := dx) (b := (r : Int))
    simp at this
    exact this.mpr hx
  have hy' : dy.natAbs ≤ r := by
    have := Int.natAbs_le_iff_mul_self_le (a := dy) (b := (r : Int))
    simp at this
    exact this.mpr hy
  omega

lemma getD_range_map {n : Nat} {f : Nat → α} {i : Nat} (hi : i < n) (d : α) :
    ((List.range n).map f).getD i d = f i := by
  rw [List.getD_eq_getElem _ _ (by simpa using hi)]
  simp

/-- Characterisation of one erosion pixel: the output is `1` iff every
disk-kernel offset stays in bounds and lands on a nonzero pixel. -/
lemma erodePix_eq_one {w h : Nat} {img : List Nat} {r : Nat} {x y : Int} :
    erodePix w h img r x y = 1 ↔
      ∀ dx dy : Int, dx * dx + dy * dy ≤ (r : Int) * (r : Int) →
        0 ≤ x + dx ∧ x + dx < (w : Int) ∧ 0 ≤ y + dy ∧ y + dy < (h : Int) ∧
        img.getD ((y + dy) * (w : Int) + (x + dx)).toNat 0 ≠ 0 := by
  unfold erodePix
  split
  · rename_i hall
    rw [List.all_eq_true] at hall
    constructor
    · intro _ dx dy hdisk
      have hmem := hall (dx, dy) (disk_mem_squareOffsets hdisk)
      simp only [hdisk, if_true, Bool.and_eq_true, decide_eq_true_eq] at hmem
      exact ⟨hmem.1.1.1.1, hmem.1.1.1.2, hmem.1.1.2, hmem.1.2, hmem.2⟩
    · intro _
      rfl
  · rename_i hall
    constructor
    · intro h0
      exact absurd h0 (by norm_num)
    · intro hforall
      exfalso
      apply hall
      rw [List.all_eq_true]
      rintro ⟨dx, dy⟩ _
      by_cases hdisk : dx * dx + dy * dy ≤ (r : Int) * (r : Int)
      · have hc := hforall dx dy hdisk
        simp only [hdisk, if_true, Bool.and_eq_true, decide_eq_true_eq]
        exact ⟨⟨⟨⟨hc.1, hc.2.1⟩, hc.2.2.1⟩, hc.2.2.2.1⟩, hc.2.2.2.2⟩
      · simp only [hdisk, if_false]

lemma erodePix_zero_or_one {w h : Nat} {img : List Nat} {r : Nat} {x y : Int} :
    erodePix w h img r x y = 0 ∨ erodePix w h img r x y = 1 := by
  unfold erodePix
  split
  · exact Or.inr rfl
  · exact Or.inl rfl

lemma erode_length {w h : Nat} {img : List Nat} {r : Nat} :
    (erode w h img r).length = h * w := by
  simp [erode]

lemma erode_getD {w h : Nat} {img : List Nat} {r : Nat} {x y : Nat}
    (hx : x < w) (hy : y < h) :
    (erode w h img r).getD (y * w + x) 0 = erodePix w h img r (x : Int) (y : Int) := by
  unfold erode
  rw [getD_range_map (pixIdx_lt hx hy)]
  rw [pixIdx_mod hx, pixIdx_div hx]

lemma getD_ne_zero_iff_eq_one {img : List Nat} (hbin : ∀ v ∈ img, v = 0 ∨ v = 1)
    (i : Nat) : (img.getD i 0 ≠ 0 ↔ img.getD i 0 = 1) := by
  by_cases hi : i < img.length
  · rw [List.getD_eq_getElem _ _ hi]
    rcases hbin img[i] (List.getElem_mem hi) with hv | hv <;> simp [hv]
  · rw [List.getD_eq_default _ _ (by omega)]
    simp

/-- Converting an in-bounds integer pixel coordinate back to the natural
row-major index. -/
lemma toNat_pix_eq {w h : Nat} {a b : Int}
    (ha0 : 0 ≤ a) (haw : a < (w : Int)) (hb0 : 0 ≤ b) (hbh : b < (h : Int)) :
    (b * (w : Int) + a).toNat = b.toNat * w + a.toNat ∧
      b.toNat * w + a.toNat < h * w := by
  constructor
  · have ha' : a = (a.toNat : Int) := (Int.toNat_of_nonneg ha0).symm
    have hb' : b = (b.toNat : Int) := (Int.toNat_of_nonneg hb0).symm
    rw [ha', hb']
    rw [show ((b.toNat : Int) * (w : Int) + (a.toNat : Int)) = ((b.toNat * w + a.toNat : Nat) : Int) by push_cast; ring]
    exact Int.toNat_natCast _
  · exact pixIdx_lt (by omega) (by omega)

/-- C4: a pixel survives erosion iff every disk-kernel offset is in bounds
and lands on a foreground (`1`) pixel of the binary input; consequently,
eroding an all-foreground mask with radius `r > 0` yields background
exactly at the pixels within Chebyshev distance `r` of a border edge
(those with `x < r`, `y < r`, `x + r ≥ w` or `y + r ≥ h`) and foreground
everywhere else. -/
theorem erode_disk_spec (w h : Nat) (img : List Nat) (r : Nat)
    (hbin : ∀ v ∈ img, v = 0 ∨ v = 1) :
    (∀ x y : Nat, x < w → y < h →
      ((erode w h img r).getD (y * w + x) 0 = 1 ↔
        ∀ dx dy : Int, dx * dx + dy * dy ≤ (r : Int) * (r : Int) →
          0 ≤ (x : Int) + dx ∧ (x : Int) + dx < (w : Int) ∧
          0 ≤ (y : Int) + dy ∧ (y : Int) + dy < (h : Int) ∧
          img.getD (((y : Int) + dy) * (w : Int) + ((x : Int) + dx)).toNat 0 = 1))
    ∧ (0 < r → ∀ x y : Nat, x < w → y < h →
        (erode w h (List.replicate (w * h) 1) r).getD (y * w + x) 0 =
          if x < r ∨ y < r ∨ w ≤ x + r ∨ h ≤ y + r then 0 else 1) := by
  have hones : ∀ v ∈ List.replicate (w * h) (1 : Nat), v = 0 ∨ v = 1 := by
    intro v hv
    exact Or.inr (List.eq_of_mem_replicate hv)
  constructor
  · intro x y hx hy
    rw [erode_getD hx hy, erodePix_eq_one]
    constructor
    · intro hall dx dy hdisk
      obtain ⟨h1, h2, h3, h4, h5⟩ := hall dx dy hdisk
      exact ⟨h1, h2, h3, h4, (getD_ne_zero_iff_eq_one hbin _).mp h5⟩
    · intro hall dx dy hdisk
      obtain ⟨h1, h2, h3, h4, h5⟩ := hall dx dy hdisk
      exact ⟨h1, h2, h3, h4, (getD_ne_zero_iff_eq_one hbin _).mpr h5⟩
  · intro hr x y hx hy
    rw [erode_getD hx hy]
    split
    · rename_i hedge
      have hzo : erodePix w h (List.replicate (w * h) 1) r (x : Int) (y : Int) = 0 ∨
          erodePix w h (List.replicate (w * h) 1) r (x : Int) (y : Int) = 1 :=
        erodePix_zero_or_one
      rcases hzo with h0 | h1
      · exact h0
      · exfalso
        rw [erodePix_eq_one] at h1
        rcases hedge with hc | hc | hc | hc
        · have := h1 (-(r : Int)) 0 (by nlinarith)
          omega
        · have := h1 0 (-(r : Int)) (by nlinarith)
          omega
        · have := h1 (r : Int) 0 (by nlinarith)
          omega
        · have := h1 0 (r : Int) (by nlinarith)
          omega
    · rename_i hedge
      push_neg at hedge
      obtain ⟨he1, he2, he3, he4⟩ := hedge
      rw [erodePix_eq_one]
      intro dx dy hdisk
      have hdx : dx.natAbs ≤ r := by
        have hsq : dx * dx ≤ (r : Int) * (r : Int) := by nlinarith [mul_self_nonneg dy]
        have habs := Int.natAbs_le_iff_mul_self_le (a := dx) (b := (r : Int))
        simp at habs
        exact habs.mpr hsq
      have hdy : dy.natAbs ≤ r := by
        have hsq : dy * dy ≤ (r : Int) * (r : Int) := by nlinarith [mul_self_nonneg dx]
        have habs := Int.natAbs_le_iff_mul_self_le (a := dy) (b := (r : Int))
        simp at habs
        exact habs.mpr hsq
      have hb1 : 0 ≤ (x : Int) + dx := by omega
      have hb2 : (x : Int) + dx < (w : Int) := by omega
      have hb3 : 0 ≤ (y : Int) + dy := by omega
      have hb4 : (y : Int) + dy < (h : Int) := by omega
      refine ⟨hb1, hb2, hb3, hb4, ?_⟩
      obtain ⟨heq, hlt⟩ := toNat_pix_eq hb1 hb2 hb3 hb4
      rw [heq]
      rw [List.getD_eq_getElem _ _
        (by simp only [List.length_replicate]; exact hlt.trans_eq (Nat.mul_comm h w))]
      simp

/-- The in-bounds disk-kernel write targets produced by one foreground
source pixel of `SubjectRefiner::dilate` (lines 124-147), in loop order;
out-of-bounds neighbours are skipped. -/
def dilatePixWrites (w h : Nat) (radius : Nat) (x y : Nat) : List Nat :=
  (squareOffsets radius).filterMap (fun p =>
    if p.1 * p.1 + p.2 * p.2 ≤ (radius : Int) * (radius : Int) then
      let nx := (x : Int) + p.1
      let ny := (y : Int) + p.2
      if 0 ≤ nx ∧ nx < (w : Int) ∧ 0 ≤ ny ∧ ny < (h : Int) then
        some (ny * (w : Int) + nx).toNat
      else none
    else none)

/-- The ordered list of all indices written by `SubjectRefiner::dilate`:
the loops visit pixels in row-major order and emit the disk writes of
every pixel whose input value is `1`. -/
def dilateWrites (w h : Nat) (img : List Nat) (radius : Nat) : List Nat :=
  ((List.range h).flatMap (fun y => (List.range w).map (fun x => (x, y)))).flatMap
    (fun p => if img.getD (p.2 * w + p.1) 0 = 1 then dilatePixWrites w h radius p.1 p.2 else [])

/-- `SubjectRefiner::dilate` (lines 124-147): starting from an all-zero
buffer of `img.len()` entries, set every write target to `1`.  Because
each write stores the constant `1`, the loop is embedded as the fold of
its write list. -/
def dilate (w h : Nat) (img : List Nat) (radius : Nat) : List Nat :=
  (dilateWrites w h img radius).foldl (fun out j => out.set j 1) (List.replicate img.length 0)

lemma getD_replicate {α : Type} {a d : α} {n i : Nat} :
    (List.replicate n a).getD i d = if i < n then a else d := by
  by_cases hi : i < n
  · rw [List.getD_eq_getElem _ _ (by simpa using hi), List.getElem_replicate, if_pos hi]
  · rw [List.getD_eq_default _ _ (by simpa using hi), if_neg hi]

lemma foldl_set_length (ws : List Nat) (out : List Nat) :
    (ws.foldl (fun o j => o.set j 1) out).length = out.length := by
  induction ws generalizing out with
  | nil => rfl
  | cons j ws ih =>
    simp only [List.foldl_cons]
    rw [ih, List.length_set]

lemma foldl_set_getD (ws : List Nat) (out : List Nat) (i : Nat) :
    (ws.foldl (fun o j => o.set j 1) out).getD i 0 =
      if i ∈ ws ∧ i < out.length then 1 else out.getD i 0 := by
  induction ws generalizing out with
  | nil => simp
  | cons j ws ih =>
    simp only [List.foldl_cons]
    rw [ih]
    simp only [List.length_set, List.mem_cons]
    by_cases hlen : i < out.length
    · by_cases hmem : i ∈ ws
      · simp [hmem, hlen]
      · simp only [hmem, and_false, false_and, false_or, if_false, and_true, or_false]
        by_cases hji : j = i
        · subst hji
          rw [List.getD_eq_getElem _ _ (by simpa using hlen)]
          rw [List.getElem_set]
          simp [hlen]
        · rw [if_neg (fun hc => hji (hc.1.symm))]
          by_cases hjlen : j < out.length
          · rw [List.getD_eq_getElem _ _ (by simpa using hlen),
              List.getD_eq_getElem _ _ hlen]
            rw [List.getElem_set]
            simp [hji]
          · rw [List.set_eq_of_length_le (by omega)]
    · rw [if_neg (by tauto), if_neg (by tauto)]
      have h1 : (out.set j 1).getD i 0 = 0 := List.getD_eq_default _ _ (by simpa using hlen)
      have h2 : out.getD i 0 = 0 := List.getD_eq_default _ _ (by omega)
      rw [h1, h2]

lemma dilate_length {w h : Nat} {img : List Nat} {r : Nat} :
    (dilate w h img r).length = img.length := by
  unfold dilate
  rw [foldl_set_length, List.length_replicate]

lemma dilate_getD {w h : Nat} {img : List Nat} {r : Nat} {i : Nat} (hi : i < img.length) :
    (dilate w h img r).getD i 0 = if i ∈ dilateWrites w h img r then 1 else 0 := by
  unfold dilate
  rw [foldl_set_getD]
  simp only [List.length_replicate]
  by_cases hmem : i ∈ dilateWrites w h img r
  · simp [hmem, hi]
  · rw [if_neg (by tauto), if_neg hmem, getD_replicate, if_pos hi]

/-- Every write target of `dilate` is an in-grid row-major index. -/
lemma dilatePixWrites_lt {w h r x y : Nat} {j : Nat}
    (hj : j ∈ dilatePixWrites w h r x y) : j < h * w := by
  unfold dilatePixWrites at hj
  obtain ⟨p, _, hp⟩ := List.mem_filterMap.mp hj
  by_cases hdisk : p.1 * p.1 + p.2 * p.2 ≤ (r : Int) * (r : Int)
  · rw [if_pos hdisk] at hp
    simp only at hp
    by_cases hb : 0 ≤ (x : Int) + p.1 ∧ (x : Int) + p.1 < (w : Int) ∧
        0 ≤ (y : Int) + p.2 ∧ (y : Int) + p.2 < (h : Int)
    · rw [if_pos hb] at hp
      obtain ⟨hb1, hb2, hb3, hb4⟩ := hb
      obtain ⟨heq, hlt⟩ := toNat_pix_eq hb1 hb2 hb3 hb4
      cases hp
      rw [heq]
      exact hlt
    · rw [if_neg hb] at hp
      cases hp
  · rw [if_neg hdisk] at hp
    cases hp

lemma dilateWrites_lt {w h : Nat} {img : List Nat} {r : Nat} {j : Nat}
    (hj : j ∈ dilateWrites w h img r) : j < h * w := by
  unfold dilateWrites at hj
  obtain ⟨p, _, hp⟩ := List.mem_flatMap.mp hj
  by_cases hfg : img.getD (p.2 * w + p.1) 0 = 1
  · rw [if_pos hfg] at hp
    exact dilatePixWrites_lt hp
  · rw [if_neg hfg] at hp
    cases hp

/-- Dilating a mask with no foreground pixel produces no writes. -/
lemma dilateWrites_of_zero {w h : Nat} {img : List Nat} {r : Nat}
    (hz : ∀ i, img.getD i 0 ≠ 1) : dilateWrites w h img r = [] := by
  unfold dilateWrites
  rw [List.flatMap_eq_nil_iff]
  intro p _
  rw [if_neg (hz _)]

lemma dilate_of_zero {w h : Nat} {img : List Nat} {r : Nat}
    (hz : ∀ i, img.getD i 0 ≠ 1) :
    dilate w h img r = List.replicate img.length 0 := by
  unfold dilate
  rw [dilateWrites_of_zero hz]
  rfl

/-- The neighbours pushed by the BFS loop of `SubjectRefiner::flood_fill`
(lines 184-193), in push order (left, right, up, down), with the code's
bounds guards `x > 0`, `x < w - 1`, `y > 0`, `y < h - 1`. -/
def nbrs (w h : Nat) (x y : Nat) : List (Nat × Nat) :=
  (if 0 < x then [(x - 1, y)] else []) ++
  (if x < w - 1 then [(x + 1, y)] else []) ++
  (if 0 < y then [(x, y - 1)] else []) ++
  (if y < h - 1 then [(x, y + 1)] else [])

lemma nbrs_length_le {w h x y : Nat} : (nbrs w h x y).length ≤ 4 := by
  unfold nbrs
  split <;> split <;> split <;> split <;> simp

/-- Fuel-indexed version of the BFS loop of `flood_fill` (lines 184-193):
pop `(x, y)`; if that pixel is unmarked (`out` is `0`) foreground (`img`
is `1`), mark it and push its guarded neighbours.  The fuel argument only
makes the recursion structural; `bfs` below supplies enough fuel for the
loop to run to completion, so the fuel-exhaustion branch is never taken.
The `getD` defaults (`1` for `out`, `0` for `img`) stand for reads the
Rust code performs unchecked; `refine_maskChecked` below certifies that
in the pipeline every such read is in bounds. -/
def bfsFuel (w h : Nat) (img : List Nat) : Nat → List Nat → List (Nat × Nat) → List Nat
  | 0, out, _ => out
  | _ + 1, out, [] => out
  | fuel + 1, out, (x, y) :: q =>
    let i := y * w + x
    if out.getD i 1 = 0 ∧ img.getD i 0 = 1 then
      bfsFuel w h img fuel (out.set i 1) (q ++ nbrs w h x y)
    else
      bfsFuel w h img fuel out q

/-- Termination measure for the BFS loop: every marking step removes a
zero from `out`, every step pops one queue entry and pushes at most four. -/
def bfsMeasure (out : List Nat) (q : List (Nat × Nat)) : Nat :=
  5 * out.count 0 + q.length

/-- The BFS loop of `flood_fill`, run to completion. -/
def bfs (w h : Nat) (img : List Nat) (out : List Nat) (q : List (Nat × Nat)) : List Nat :=
  bfsFuel w h img (bfsMeasure out q) out q

lemma count_zero_set_one : ∀ (l : List Nat) (i : Nat), l.getD i 1 = 0 →
    (l.set i 1).count 0 + 1 = l.count 0 := by
  intro l
  induction l with
  | nil =>
    intro i hi
    rw [List.getD_eq_default _ _ (by simp)] at hi
    cases hi
  | cons b t ih =>
    intro i hi
    cases i with
    | zero =>
      rw [List.getD_eq_getElem _ _ (by simp)] at hi
      simp only [List.getElem_cons_zero] at hi
      subst hi
      simp [List.count_cons]
    | succ n =>
      have hn : t.getD n 1 = 0 := by
        by_cases hlt : n < t.length
        · rw [List.getD_eq_getElem _ _ (by simpa using Nat.succ_lt_succ hlt)] at hi
          rw [List.getD_eq_getElem _ _ hlt]
          simpa using hi
        · rw [List.getD_eq_default _ _ (by simpa using hlt)] at hi
          cases hi
      have := ih n hn
      simp only [List.set_cons_succ, List.count_cons]
      omega

lemma getD_one_lt_length {l : List Nat} {i : Nat} (hi : l.getD i 1 = 0) : i < l.length := by
  by_contra hc
  rw [List.getD_eq_default _ _ (by omega)] at hi
  cases hi

/-- The value of `bfsFuel` does not depend on the fuel, provided the fuel
dominates the termination measure. -/
lemma bfsFuel_congr (w h : Nat) (img : List Nat) :
    ∀ n f₁ f₂ out (q : List (Nat × Nat)), f₁ + f₂ ≤ n →
      bfsMeasure out q ≤ f₁ → bfsMeasure out q ≤ f₂ →
      bfsFuel w h img f₁ out q = bfsFuel w h img f₂ out q := by
  intro n
  induction n with
  | zero =>
    intro f₁ f₂ out q hn h1 h2
    have hf1 : f₁ = 0 := by omega
    have hf2 : f₂ = 0 := by omega
    rw [hf1, hf2]
  | succ n ih =>
    intro f₁ f₂ out q hn h1 h2
    match q with
    | [] =>
      cases f₁ <;> cases f₂ <;> rfl
    | (x, y) :: q' =>
      have hq : 1 ≤ bfsMeasure out ((x, y) :: q') := by
        unfold bfsMeasure
        simp only [List.length_cons]
        omega
      match f₁, f₂ with
      | a + 1, b + 1 =>
        show (if out.getD (y * w + x) 1 = 0 ∧ img.getD (y * w + x) 0 = 1 then
            bfsFuel w h img a (out.set (y * w + x) 1) (q' ++ nbrs w h x y)
          else bfsFuel w h img a out q') =
          (if out.getD (y * w + x) 1 = 0 ∧ img.getD (y * w + x) 0 = 1 then
            bfsFuel w h img b (out.set (y * w + x) 1) (q' ++ nbrs w h x y)
          else bfsFuel w h img b out q')
        have hM : bfsMeasure out ((x, y) :: q') = 5 * out.count 0 + q'.length + 1 := by
          unfold bfsMeasure
          simp only [List.length_cons]
          omega
        split
        · rename_i hmark
          have hcount := count_zero_set_one out (y * w + x) hmark.1
          have hnext : bfsMeasure (out.set (y * w + x) 1) (q' ++ nbrs w h x y) ≤
              5 * out.count 0 + q'.length := by
            unfold bfsMeasure
            have := nbrs_length_le (w := w) (h := h) (x := x) (y := y)
            simp only [List.length_append]
            omega
          exact ih a b _ _ (by omega) (by omega) (by omega)
        · have hnext : bfsMeasure out q' ≤ 5 * out.count 0 + q'.length := by
            unfold bfsMeasure
            omega
          exact ih a b _ _ (by omega) (by omega) (by omega)

lemma bfs_nil {w h : Nat} {img out : List Nat} : bfs w h img out [] = out := by
  unfold bfs
  cases hM : bfsMeasure out [] <;> rfl

/-- One-step unfolding of the BFS loop. -/
lemma bfs_cons {w h : Nat} {img out : List Nat} {x y : Nat} {q : List (Nat × Nat)} :
    bfs w h img out ((x, y) :: q) =
      (if out.getD (y * w + x) 1 = 0 ∧ img.getD (y * w + x) 0 = 1 then
        bfs w h img (out.set (y * w + x) 1) (q ++ nbrs w h x y)
      else bfs w h img out q) := by
  unfold bfs
  have hM : bfsMeasure out ((x, y) :: q) = 5 * out.count 0 + q.length + 1 := by
    unfold bfsMeasure
    simp only [List.length_cons]
    omega
  rw [hM]
  show (if out.getD (y * w + x) 1 = 0 ∧ img.getD (y * w + x) 0 = 1 then
      bfsFuel w h img (5 * out.count 0 + q.length) (out.set (y * w + x) 1) (q ++ nbrs w h x y)
    else bfsFuel w h img (5 * out.count 0 + q.length) out q) = _
  split
  · rename_i hmark
    have hcount := count_zero_set_one out (y * w + x) hmark.1
    have hnext : bfsMeasure (out.set (y * w + x) 1) (q ++ nbrs w h x y) ≤
        5 * out.count 0 + q.length := by
      unfold bfsMeasure
      have := nbrs_length_le (w := w) (h := h) (x := x) (y := y)
      simp only [List.length_append]
      omega
    exact bfsFuel_congr w h img _ _ _ _ _ (le_refl _) hnext (le_refl _)
  · have hnext : bfsMeasure out q ≤ 5 * out.count 0 + q.length := by
      unfold bfsMeasure
      omega
    exact bfsFuel_congr w h img _ _ _ _ _ (le_refl _) hnext (le_refl _)

/-- The candidate offsets scanned by the nearest-seed search of
`flood_fill` (lines 161-180): expanding squares of Chebyshev radius 1 to
20, each scanned with `dy` outer and `dx` inner.  The `found` flag makes
the Rust loops stop at the first hit, so the search is `List.find?` over
this concatenated scan list. -/
def seedCandidates : List (Int × Int) :=
  (List.range 20).flatMap (fun r => squareOffsets (r + 1))

/-- The hit test of the nearest-seed search (lines 167-171): the offset
lands in bounds and on a foreground pixel. -/
def seedHit (w h : Nat) (img : List Nat) (sx sy : Nat) (p : Int × Int) : Bool :=
  let nx := (sx : Int) + p.1
  let ny := (sy : Int) + p.2
  decide (0 ≤ nx) && decide (nx < (w : Int)) && decide (0 ≤ ny) && decide (ny < (h : Int)) &&
  decide (img.getD (ny * (w : Int) + nx).toNat 0 = 1)

/-- The seed chosen by the nearest-seed search when the click pixel is
background, as grid coordinates. -/
def nearestSeed (w h : Nat) (img : List Nat) (sx sy : Nat) : Option (Nat × Nat) :=
  (seedCandidates.find? (seedHit w h img sx sy)).map
    (fun p => (((sx : Int) + p.1).toNat, ((sy : Int) + p.2).toNat))

/-- `SubjectRefiner::flood_fill` (lines 149-194).  If the start pixel is
foreground the BFS starts there; otherwise the nearest-seed search picks
the start, and if it finds nothing the output buffer is returned
untouched. -/
def flood_fill (w h : Nat) (img : List Nat) (out : List Nat) (sx sy : Nat) : List Nat :=
  if img.getD (sy * w + sx) 0 = 1 then
    bfs w h img out [(sx, sy)]
  else
    match nearestSeed w h img sx sy with
    | some p => bfs w h img out [p]
    | none => out

/-- The history update of `refine_mask` (lines 42-45): push the new mask,
then drop the oldest entry if the bound is now exceeded (`Vec::remove(0)`
is `List.tail`). -/
def updateHistory (R : SubjectRefiner) (mask : List ℚ) : List (List ℚ) :=
  let g := R.history ++ [mask]
  if R.max_history < g.length then g.tail else g

/-- The temporal average of `refine_mask` (lines 47-52): each history
frame contributes `h[i] / history_len` to pixel `i`.  When the history is
empty (possible only with `max_history = 0`) the Rust inner loop body
never runs, matching the empty sum here. -/
def averagedOf (hist : List (List ℚ)) (size : Nat) : List ℚ :=
  (List.range size).map (fun i => (hist.map (fun hm => hm.getD i 0 / (hist.length : ℚ))).sum)

/-- The thresholding step of `refine_mask` (lines 56-62): binary `1` where
the averaged value exceeds `0.5`. -/
def thresholdMask (size : Nat) (avg : List ℚ) : List Nat :=
  (List.range size).map (fun i => if 1 / 2 < avg.getD i 0 then 1 else 0)

/-- The eroded binary mask computed by `refine_mask` (lines 54-65) from a
given history: threshold the temporal average at `0.5`, then erode with
the fixed kernel radius `5`. -/
def pipelineEroded (R : SubjectRefiner) (hist : List (List ℚ)) : List Nat :=
  erode R.width R.height
    (thresholdMask (R.width * R.height) (averagedOf hist (R.width * R.height))) 5

/-- The compositing step of `refine_mask` (lines 83-89): keep the original
confidence value exactly where the dilated mask is set and the original
value exceeds `0.1`, else `0`. -/
def compositeOf (input : List ℚ) (dilated : List Nat) (size : Nat) : List ℚ :=
  (List.range size).map (fun i =>
    if 0 < dilated.getD i 0 ∧ 1 / 10 < input.getD i 0 then input.getD i 0 else 0)

/-- `SubjectRefiner::refine_mask` (lines 34-92), as a function from the
processor state and the call arguments to the new state and the returned
mask.  The kernel radius is the code's fixed `kernel_size = 5`; the click
is converted with `as usize` saturating truncation. -/
def refine_mask (R : SubjectRefiner) (input_mask : List ℚ) (click_x click_y : ℚ) :
    SubjectRefiner × List ℚ :=
  if input_mask.length ≠ R.width * R.height then (R, input_mask)
  else
    let hist := updateHistory R input_mask
    let eroded := pipelineEroded R hist
    let clx := f32ToUsize (click_x * (R.width : ℚ))
    let cly := f32ToUsize (click_y * (R.height : ℚ))
    let isolated :=
      if clx < R.width ∧ cly < R.height then
        flood_fill R.width R.height eroded (List.replicate (R.width * R.height) 0) clx cly
      else eroded
    let dilated := dilate R.width R.height isolated 5
    ({ R with history := hist }, compositeOf input_mask dilated (R.width * R.height))

lemma refine_mask_fst (R : SubjectRefiner) (m : List ℚ) (cx cy : ℚ)
    (hm : m.length = R.width * R.height) :
    (refine_mask R m cx cy).1 = { R with history := updateHistory R m } := by
  unfold refine_mask
  rw [if_neg (not_ne_iff.mpr hm)]

lemma refine_mask_dims (R : SubjectRefiner) (m : List ℚ) (cx cy : ℚ) :
    (refine_mask R m cx cy).1.width = R.width ∧
    (refine_mask R m cx cy).1.height = R.height ∧
    (refine_mask R m cx cy).1.max_history = R.max_history := by
  unfold refine_mask
  split
  · exact ⟨rfl, rfl, rfl⟩
  · exact ⟨rfl, rfl, rfl⟩

/-- A sequence of `refine_mask` calls (mask and click pair per call),
returning the final processor state. -/
def runCalls (R : SubjectRefiner) (calls : List (List ℚ × ℚ × ℚ)) : SubjectRefiner :=
  calls.foldl (fun S c => (refine_mask S c.1 c.2.1 c.2.2).1) R

/-- Effect of one valid-size history update, phrased against the list of
all masks submitted so far: the buffer always holds the `max_history`
most recent submissions. -/
lemma updateHistory_drop {R : SubjectRefiner} {m : List ℚ} {l : List (List ℚ)}
    (hh : R.history = l.drop (l.length - R.max_history)) :
    updateHistory R m = (l ++ [m]).drop ((l.length + 1) - R.max_history) := by
  unfold updateHistory
  by_cases hlt : l.length < R.max_history
  · have hd : l.length - R.max_history = 0 := by omega
    rw [hd, List.drop_zero] at hh
    have hlen : (R.history ++ [m]).length = l.length + 1 := by
      rw [hh]
      simp
    rw [if_neg (by omega), hh]
    rw [show l.length + 1 - R.max_history = 0 from by omega, List.drop_zero]
  · have hge : R.max_history ≤ l.length := by omega
    have hlen : R.history.length = R.max_history := by
      rw [hh, List.length_drop]
      omega
    rw [if_pos (by simp only [List.length_append, List.length_cons, List.length_nil]; omega)]
    by_cases hz : R.max_history = 0
    · have hnil : R.history = [] := List.length_eq_zero.mp (by omega)
      rw [hnil]
      rw [show l.length + 1 - R.max_history = (l ++ [m]).length from by simp; omega]
      rw [List.drop_length]
      rfl
    · have hne : R.history ≠ [] := by
        intro hcon
        rw [hcon] at hlen
        simp at hlen
        omega
      rw [hh]
      rw [show (l.drop (l.length - R.max_history) ++ [m]).tail =
          (l.drop (l.length - R.max_history)).tail ++ [m] from
        List.tail_append_of_ne_nil (by rw [← hh]; exact hne)]
      rw [List.tail_drop]
      rw [List.drop_append_of_le_length (by omega)]
      rw [show l.length + 1 - R.max_history = l.length - R.max_history + 1 from by omega]

lemma runCalls_history (w h mh : Nat) :
    ∀ (calls : List (List ℚ × ℚ × ℚ)) (S : SubjectRefiner) (l : List (List ℚ)),
      S.width = w → S.height = h → S.max_history = mh →
      S.history = l.drop (l.length - mh) →
      (∀ c ∈ calls, (c.1 : List ℚ).length = w * h) →
      (runCalls S calls).history =
        (l ++ calls.map Prod.fst).drop ((l ++ calls.map Prod.fst).length - mh) := by
  intro calls
  induction calls with
  | nil =>
    intro S l hw hht hmx hh _
    simp only [runCalls, List.foldl_nil, List.map_nil, List.append_nil]
    rw [hh]
  | cons c cs ih =>
    intro S l hw hht hmx hh hvalid
    have hc : (c.1 : List ℚ).length = S.width * S.height := by
      rw [hw, hht]
      exact hvalid c (List.mem_cons_self c cs)
    have hstep : (refine_mask S c.1 c.2.1 c.2.2).1 = { S with history := updateHistory S c.1 } :=
      refine_mask_fst S c.1 c.2.1 c.2.2 hc
    have hrun : runCalls S (c :: cs) = runCalls { S with history := updateHistory S c.1 } cs := by
      unfold runCalls
      rw [List.foldl_cons, hstep]
    rw [hrun]
    have hupd : updateHistory S c.1 = (l ++ [c.1]).drop ((l ++ [c.1]).length - mh) := by
      rw [← hmx]
      rw [updateHistory_drop (by rw [hh, hmx])]
      congr 1
      simp
    have := ih { S with history := updateHistory S c.1 } (l ++ [c.1]) hw hht hmx hupd
      (fun d hd => hvalid d (List.mem_cons_of_mem c hd))
    rw [this]
    simp [List.append_assoc]

/-- C2: the history-buffer invariant.  Starting from a fresh processor,
after any prefix of valid-size calls the history holds exactly the most
recent `max_history` submitted masks in submission order (each call
appends the new mask and evicts only the oldest entry when the bound is
exceeded), and its length is `min max_history (number of calls)` — in
particular it never exceeds `max_history`, and after at least
`max_history` calls it equals `max_history`. -/
theorem history_invariant (w h mh : Nat) (calls : List (List ℚ × ℚ × ℚ))
    (hvalid : ∀ c ∈ calls, (c.1 : List ℚ).length = w * h) :
    ∀ k : Nat,
      (runCalls (mkRefiner w h mh) (calls.take k)).history =
        ((calls.take k).map Prod.fst).drop (((calls.take k).map Prod.fst).length - mh) ∧
      ((runCalls (mkRefiner w h mh) (calls.take k)).history).length =
        min mh (calls.take k).length := by
  intro k
  have h1 := runCalls_history w h mh (calls.take k) (mkRefiner w h mh) [] rfl rfl rfl
    (by simp [mkRefiner]) (fun c hc => hvalid c (List.take_subset k calls hc))
  simp only [List.nil_append] at h1
  refine ⟨h1, ?_⟩
  rw [h1, List.length_drop, List.length_map]
  omega

lemma sum_map_div {α : Type} (l : List α) (f : α → ℚ) (c : ℚ) :
    (l.map (fun a => f a / c)).sum = (l.map f).sum / c := by
  induction l with
  | nil => simp
  | cons a t ih =>
    simp only [List.map_cons, List.sum_cons, ih]
    rw [add_div]

/-- C3: after a valid-size mask is submitted, the temporally averaged
mask at every pixel index equals the unweighted arithmetic mean of that
pixel over all masks retained in the (just updated) history. -/
theorem averaged_is_mean (R : SubjectRefiner) (m : List ℚ) (cx cy : ℚ)
    (hm : m.length = R.width * R.height) :
    ∀ i, i < R.width * R.height →
      (averagedOf ((refine_mask R m cx cy).1.history) (R.width * R.height)).getD i 0 =
        ((((refine_mask R m cx cy).1.history).map (fun hm2 => hm2.getD i 0)).sum) /
          (((refine_mask R m cx cy).1.history).length : ℚ) := by
  rw [refine_mask_fst R m cx cy hm]
  intro i hi
  unfold averagedOf
  rw [getD_range_map hi]
  exact sum_map_div _ _ _

/-- C1: for every processor state and every input mask whose length
differs from `width * height`, `refine_mask` returns the input mask
verbatim and performs no state mutation: the state, in particular the
history buffer, is unchanged. -/
theorem refine_mask_size_mismatch (R : SubjectRefiner) (m : List ℚ) (cx cy : ℚ)
    (hm : m.length ≠ R.width * R.height) :
    refine_mask R m cx cy = (R, m) ∧ (refine_mask R m cx cy).1.history = R.history := by
  unfold refine_mask
  rw [if_pos hm]
  exact ⟨rfl, rfl⟩

theorem refine_mask_size_mismatch_witness :
    refine_mask (mkRefiner 2 2 1) [1] 0 0 = (mkRefiner 2 2 1, [1]) ∧
    (refine_mask (mkRefiner 2 2 1) [1] 0 0).1.history = (mkRefiner 2 2 1).history :=
  refine_mask_size_mismatch (mkRefiner 2 2 1) [1] 0 0 (by decide)

def c2Calls : List (List ℚ × ℚ × ℚ) := [([2], 5, 5), ([3], 5, 5), ([4], 5, 5)]

theorem history_invariant_witness :
    (runCalls (mkRefiner 1 1 2) (c2Calls.take 3)).history =
      ((c2Calls.take 3).map Prod.fst).drop (((c2Calls.take 3).map Prod.fst).length - 2) ∧
    ((runCalls (mkRefiner 1 1 2) (c2Calls.take 3)).history).length =
      min 2 (c2Calls.take 3).length :=
  history_invariant 1 1 2 c2Calls (by decide) 3

/-- The processor state after submitting the constant masks `0.0` and
`0.6` to a fresh `1 × 1` processor with `max_history = 3` (clicks out of
grid so that the flood-fill stage is skipped). -/
def c3State : SubjectRefiner :=
  (refine_mask (refine_mask (mkRefiner 1 1 3) [0] 5 5).1 [3 / 5] 5 5).1

unseal Rat.mul Rat.add Rat.inv Rat.sub in
theorem averaged_is_mean_witness :
    (averagedOf ((refine_mask c3State [9 / 10] 5 5).1.history) 1).getD 0 0 = 1 / 2 := by
  have hmean := averaged_is_mean c3State [9 / 10] 5 5 (by decide) 0 (by decide)
  rw [show (c3State.width * c3State.height) = 1 from by decide] at hmean
  rw [hmean]
  decide

theorem erode_disk_spec_witness :
    (erode 3 3 (List.replicate (3 * 3) 1) 1).getD (1 * 3 + 1) 0 =
      if 1 < 1 ∨ 1 < 1 ∨ 3 ≤ 1 + 1 ∨ 3 ≤ 1 + 1 then 0 else 1 :=
  (erode_disk_spec 3 3 (List.replicate (3 * 3) 1) 1 (by decide)).2 (by decide) 1 1
    (by decide) (by decide)


/-- A pixel coordinate lies inside the grid. -/
def inGrid (w h : Nat) (p : Nat × Nat) : Prop := p.1 < w ∧ p.2 < h

/-- Mathematical 4-adjacency of two pixel coordinates. -/
def adj4 (p q : Nat × Nat) : Prop :=
  (p.1 = q.1 ∧ (p.2 + 1 = q.2 ∨ q.2 + 1 = p.2)) ∨
  (p.2 = q.2 ∧ (p.1 + 1 = q.1 ∨ q.1 + 1 = p.1))

/-- A pixel is in-grid foreground in the binary mask `img`. -/
def isFg (w h : Nat) (img : List Nat) (p : Nat × Nat) : Prop :=
  inGrid w h p ∧ img.getD (p.2 * w + p.1) 0 = 1

/-- 4-connected reachability through foreground pixels, from `s` to `p`. -/
def reaches (w h : Nat) (img : List Nat) (s p : Nat × Nat) : Prop :=
  Relation.ReflTransGen (fun a b => adj4 a b ∧ isFg w h img b) s p

lemma mem_if_singleton {α : Type} {c : Prop} [Decidable c] {v q : α} :
    q ∈ (if c then [v] else []) ↔ c ∧ q = v := by
  split
  · rename_i hc
    simp [hc]
  · rename_i hc
    simp [hc]

/-- The guarded neighbour list of the BFS loop contains exactly the
in-grid 4-neighbours (for an in-grid centre pixel). -/
lemma mem_nbrs {w h x y : Nat} {q : Nat × Nat} (hx : x < w) (hy : y < h) :
    q ∈ nbrs w h x y ↔ adj4 (x, y) q ∧ inGrid w h q := by
  rcases q with ⟨a, b⟩
  unfold nbrs adj4 inGrid
  simp only [List.mem_append, mem_if_singleton, Prod.mk.injEq]
  omega

/-- In-grid coordinates are uniquely determined by the row-major index. -/
lemma pixIdx_inj {w h : Nat} {p q : Nat × Nat}
    (hp : inGrid w h p) (hq : inGrid w h q)
    (heq : p.2 * w + p.1 = q.2 * w + q.1) : p = q := by
  rcases p with ⟨a, b⟩
  rcases q with ⟨c, d⟩
  obtain ⟨ha, hb⟩ := hp
  obtain ⟨hc, hd⟩ := hq
  simp only at ha hb hc hd heq
  have h1 : (b * w + a) % w = a := pixIdx_mod ha
  have h2 : (d * w + c) % w = c := pixIdx_mod hc
  have h3 : (b * w + a) / w = b := pixIdx_div ha
  have h4 : (d * w + c) / w = d := pixIdx_div hc
  rw [heq] at h1 h3
  simp only [Prod.mk.injEq]
  omega

lemma getD_set_self {α : Type} {l : List α} {i : Nat} {v d : α} (hi : i < l.length) :
    (l.set i v).getD i d = v := by
  rw [List.getD_eq_getElem _ _ (by simpa using hi)]
  exact List.getElem_set_self _

lemma getD_set_ne {α : Type} {l : List α} {i j : Nat} {v d : α} (hij : i ≠ j) :
    (l.set i v).getD j d = l.getD j d := by
  by_cases hj : j < l.length
  · rw [List.getD_eq_getElem _ _ (by simpa using hj), List.getD_eq_getElem _ _ hj,
      List.getElem_set_ne hij]
  · rw [List.getD_eq_default _ _ (by simp only [List.length_set]; omega),
      List.getD_eq_default _ _ (by omega)]

/-- A mark persists under further marking. -/
lemma getD_set_of_one {l : List Nat} {i j : Nat} (hmark : l.getD i 1 = 0)
    (hj : l.getD j 1 = 1) : (l.set i 1).getD j 1 = 1 := by
  by_cases hij : i = j
  · subst hij
    exact getD_set_self (getD_one_lt_length hmark)
  · rw [getD_set_ne hij]
    exact hj

lemma bfsMeasure_tail_lt {out : List Nat} {x y : Nat} {q : List (Nat × Nat)} :
    bfsMeasure out q < bfsMeasure out ((x, y) :: q) := by
  unfold bfsMeasure
  simp only [List.length_cons]
  omega

lemma bfsMeasure_mark_lt {w h : Nat} {out : List Nat} {x y : Nat} {q : List (Nat × Nat)}
    (hmark : out.getD (y * w + x) 1 = 0) :
    bfsMeasure (out.set (y * w + x) 1) (q ++ nbrs w h x y) < bfsMeasure out ((x, y) :: q) := by
  have hcount := count_zero_set_one out (y * w + x) hmark
  have hn := nbrs_length_le (w := w) (h := h) (x := x) (y := y)
  unfold bfsMeasure
  simp only [List.length_append, List.length_cons]
  omega

lemma bfs_length (w h : Nat) (img : List Nat) :
    ∀ M out (q : List (Nat × Nat)), bfsMeasure out q = M →
      (bfs w h img out q).length = out.length := by
  intro M
  induction M using Nat.strong_induction_on with
  | _ M ih =>
    intro out q hM
    cases q with
    | nil =>
      rw [bfs_nil]
    | cons hd q' =>
      obtain ⟨x, y⟩ := hd
      rw [bfs_cons]
      split
      · rename_i hmark
        rw [ih _ (hM ▸ bfsMeasure_mark_lt hmark.1) _ _ rfl, List.length_set]
      · rw [ih _ (hM ▸ bfsMeasure_tail_lt) _ _ rfl]

/-- Soundness of the BFS loop: every pixel it marks satisfies any
predicate that holds of the foreground queue entries and is closed under
foreground 4-adjacency. -/
lemma bfs_sound (w h : Nat) (img : List Nat) (P : Nat × Nat → Prop)
    (hPc : ∀ p, P p → ∀ n, adj4 p n → isFg w h img n → P n) :
    ∀ M out (q : List (Nat × Nat)), bfsMeasure out q = M →
      (∀ p ∈ q, inGrid w h p) →
      (∀ p ∈ q, isFg w h img p → P p) →
      (∀ p, inGrid w h p → out.getD (p.2 * w + p.1) 1 = 1 → P p) →
      ∀ p, inGrid w h p → (bfs w h img out q).getD (p.2 * w + p.1) 1 = 1 → P p := by
  intro M
  induction M using Nat.strong_induction_on with
  | _ M ih =>
    intro out q hM hq hPq hout p hp hmarked
    cases q with
    | nil =>
      rw [bfs_nil] at hmarked
      exact hout p hp hmarked
    | cons hd q' =>
      obtain ⟨x, y⟩ := hd
      have hxy : inGrid w h (x, y) := hq _ (List.mem_cons_self _ _)
      rw [bfs_cons] at hmarked
      split at hmarked
      · rename_i hcond
        have hPxy : P (x, y) := hPq _ (List.mem_cons_self _ _) ⟨hxy, hcond.2⟩
        refine ih _ (hM ▸ bfsMeasure_mark_lt hcond.1) _ _ rfl ?_ ?_ ?_ p hp hmarked
        · intro r hr
          rcases List.mem_append.mp hr with hr | hr
          · exact hq r (List.mem_cons_of_mem _ hr)
          · exact ((mem_nbrs hxy.1 hxy.2).mp hr).2
        · intro r hr hfgr
          rcases List.mem_append.mp hr with hr | hr
          · exact hPq r (List.mem_cons_of_mem _ hr) hfgr
          · exact hPc _ hPxy r ((mem_nbrs hxy.1 hxy.2).mp hr).1 hfgr
        · intro r hr hmr
          by_cases hidx : y * w + x = r.2 * w + r.1
          · have : (x, y) = r := pixIdx_inj hxy hr hidx
            rw [← this]
            exact hPxy
          · rw [getD_set_ne hidx] at hmr
            exact hout r hr hmr
      · exact ih _ (hM ▸ bfsMeasure_tail_lt) _ _ rfl
          (fun r hr => hq r (List.mem_cons_of_mem _ hr))
          (fun r hr => hPq r (List.mem_cons_of_mem _ hr))
          hout p hp hmarked


/-- Closure of the final BFS marking: the invariant is that every
foreground 4-neighbour of a marked pixel is marked or still queued; on
termination the queue is empty, so the marked set is closed under
foreground adjacency. -/
lemma bfs_closed (w h : Nat) (img : List Nat) :
    ∀ M out (q : List (Nat × Nat)), bfsMeasure out q = M →
      (∀ p ∈ q, inGrid w h p) →
      (∀ j, out.getD j 1 = 0 ∨ out.getD j 1 = 1) →
      (∀ p, inGrid w h p → out.getD (p.2 * w + p.1) 1 = 1 →
        ∀ n, adj4 p n → isFg w h img n →
          out.getD (n.2 * w + n.1) 1 = 1 ∨ n ∈ q) →
      ∀ p, inGrid w h p → (bfs w h img out q).getD (p.2 * w + p.1) 1 = 1 →
        ∀ n, adj4 p n → isFg w h img n →
          (bfs w h img out q).getD (n.2 * w + n.1) 1 = 1 := by
  intro M
  induction M using Nat.strong_induction_on with
  | _ M ih =>
    intro out q hM hq hbin hinv
    cases q with
    | nil =>
      rw [bfs_nil]
      intro p hp hmp n hadj hfgn
      rcases hinv p hp hmp n hadj hfgn with hm | hm
      · exact hm
      · cases hm
    | cons hd q' =>
      obtain ⟨x, y⟩ := hd
      have hxy : inGrid w h (x, y) := hq _ (List.mem_cons_self _ _)
      rw [bfs_cons]
      split
      · rename_i hcond
        refine ih _ (hM ▸ bfsMeasure_mark_lt hcond.1) _ _ rfl ?_ ?_ ?_
        · intro r hr
          rcases List.mem_append.mp hr with hr | hr
          · exact hq r (List.mem_cons_of_mem _ hr)
          · exact ((mem_nbrs hxy.1 hxy.2).mp hr).2
        · intro j
          by_cases hj : y * w + x = j
          · subst hj
            exact Or.inr (getD_set_self (getD_one_lt_length hcond.1))
          · rw [getD_set_ne hj]
            exact hbin j
        · intro r hr hmr n hadj hfgn
          by_cases hridx : y * w + x = r.2 * w + r.1
          · have hreq : (x, y) = r := pixIdx_inj hxy hr hridx
            subst hreq
            exact Or.inr (List.mem_append.mpr (Or.inr
              ((mem_nbrs hxy.1 hxy.2).mpr ⟨hadj, hfgn.1⟩)))
          · rw [getD_set_ne hridx] at hmr
            rcases hinv r hr hmr n hadj hfgn with hm | hm
            · exact Or.inl (getD_set_of_one hcond.1 hm)
            · rcases List.mem_cons.mp hm with hm | hm
              · subst hm
                exact Or.inl (getD_set_self (getD_one_lt_length hcond.1))
              · exact Or.inr (List.mem_append.mpr (Or.inl hm))
      · rename_i hcond
        refine ih _ (hM ▸ bfsMeasure_tail_lt) _ _ rfl
          (fun r hr => hq r (List.mem_cons_of_mem _ hr)) hbin ?_
        intro r hr hmr n hadj hfgn
        rcases hinv r hr hmr n hadj hfgn with hm | hm
        · exact Or.inl hm
        · rcases List.mem_cons.mp hm with hm | hm
          · subst hm
            rcases hbin (y * w + x) with h0 | h1
            · exact absurd ⟨h0, hfgn.2⟩ hcond
            · exact Or.inl h1
          · exact Or.inr hm

/-- If a foreground pixel is queued (or already marked), the BFS marks it. -/
lemma bfs_marks_mem (w h : Nat) (img : List Nat) :
    ∀ M out (q : List (Nat × Nat)), bfsMeasure out q = M →
      (∀ j, out.getD j 1 = 0 ∨ out.getD j 1 = 1) →
      ∀ s, isFg w h img s →
      (s ∈ q ∨ out.getD (s.2 * w + s.1) 1 = 1) →
      (bfs w h img out q).getD (s.2 * w + s.1) 1 = 1 := by
  intro M
  induction M using Nat.strong_induction_on with
  | _ M ih =>
    intro out q hM hbin s hfg hsq
    cases q with
    | nil =>
      rw [bfs_nil]
      rcases hsq with hm | hm
      · cases hm
      · exact hm
    | cons hd q' =>
      obtain ⟨x, y⟩ := hd
      rw [bfs_cons]
      split
      · rename_i hcond
        refine ih _ (hM ▸ bfsMeasure_mark_lt hcond.1) _ _ rfl ?_ s hfg ?_
        · intro j
          by_cases hj : y * w + x = j
          · subst hj
            exact Or.inr (getD_set_self (getD_one_lt_length hcond.1))
          · rw [getD_set_ne hj]
            exact hbin j
        · rcases hsq with hm | hm
          · rcases List.mem_cons.mp hm with hm | hm
            · subst hm
              exact Or.inr (getD_set_self (getD_one_lt_length hcond.1))
            · exact Or.inl (List.mem_append.mpr (Or.inl hm))
          · exact Or.inr (getD_set_of_one hcond.1 hm)
      · rename_i hcond
        refine ih _ (hM ▸ bfsMeasure_tail_lt) _ _ rfl hbin s hfg ?_
        rcases hsq with hm | hm
        · rcases List.mem_cons.mp hm with hm | hm
          · subst hm
            rcases hbin (y * w + x) with h0 | h1
            · exact absurd ⟨h0, hfg.2⟩ hcond
            · exact Or.inr h1
          · exact Or.inl hm
        · exact Or.inr hm


lemma getD_default_eq {l : List Nat} {i : Nat} (hi : i < l.length) (d1 d2 : Nat) :
    l.getD i d1 = l.getD i d2 := by
  rw [List.getD_eq_getElem _ _ hi, List.getD_eq_getElem _ _ hi]

lemma reaches_inGrid {w h : Nat} {img : List Nat} {s p : Nat × Nat}
    (hs : inGrid w h s) (hr : reaches w h img s p) : inGrid w h p := by
  induction hr with
  | refl => exact hs
  | tail hab hbc ih => exact hbc.2.1

/-- C5: for every binary mask and every in-bounds foreground seed, the
flood fill marks exactly the foreground pixels 4-connectedly reachable
from the seed through foreground pixels, and nothing else. -/
theorem flood_fill_isolates (w h : Nat) (img : List Nat) (sx sy : Nat)
    (hsx : sx < w) (hsy : sy < h) (hfg : img.getD (sy * w + sx) 0 = 1) :
    ∀ x y : Nat, x < w → y < h →
      ((flood_fill w h img (List.replicate (w * h) 0) sx sy).getD (y * w + x) 0 = 1 ↔
        reaches w h img (sx, sy) (x, y)) := by
  have hseedGrid : inGrid w h (sx, sy) := ⟨hsx, hsy⟩
  have hseedFg : isFg w h img (sx, sy) := ⟨hseedGrid, hfg⟩
  have hlen : (bfs w h img (List.replicate (w * h) 0) [(sx, sy)]).length = w * h := by
    rw [bfs_length w h img _ _ _ rfl, List.length_replicate]
  have hidx : ∀ p : Nat × Nat, inGrid w h p → p.2 * w + p.1 < w * h := by
    intro p hp
    have hlt := pixIdx_lt hp.1 hp.2
    rwa [Nat.mul_comm h w] at hlt
  have hbin0 : ∀ j, (List.replicate (w * h) (0 : Nat)).getD j 1 = 0 ∨
      (List.replicate (w * h) (0 : Nat)).getD j 1 = 1 := by
    intro j
    rw [getD_replicate]
    split
    · exact Or.inl rfl
    · exact Or.inr rfl
  have hout0 : ∀ p : Nat × Nat, inGrid w h p →
      (List.replicate (w * h) (0 : Nat)).getD (p.2 * w + p.1) 1 ≠ 1 := by
    intro p hp
    rw [getD_replicate, if_pos (hidx p hp)]
    norm_num
  have hq0 : ∀ p ∈ [(sx, sy)], inGrid w h p := by
    intro p hp
    rcases List.mem_cons.mp hp with hp | hp
    · subst hp
      exact hseedGrid
    · cases hp
  -- every reachable pixel ends up marked
  have hmarks : ∀ p : Nat × Nat, reaches w h img (sx, sy) p →
      (bfs w h img (List.replicate (w * h) 0) [(sx, sy)]).getD (p.2 * w + p.1) 1 = 1 := by
    have hseedMark : (bfs w h img (List.replicate (w * h) 0) [(sx, sy)]).getD
        (sy * w + sx) 1 = 1 :=
      bfs_marks_mem w h img _ _ _ rfl hbin0 (sx, sy) hseedFg
        (Or.inl (List.mem_cons_self _ _))
    have hclosedF := bfs_closed w h img _ (List.replicate (w * h) 0) [(sx, sy)] rfl hq0 hbin0
      (fun p hp hmp => absurd hmp (hout0 p hp))
    intro p hreach
    induction hreach with
    | refl => exact hseedMark
    | @tail b c hab hbc ih =>
      have hbGrid : inGrid w h b := reaches_inGrid hseedGrid hab
      exact hclosedF b hbGrid ih c hbc.1 hbc.2
  intro x y hx hy
  unfold flood_fill
  rw [if_pos hfg]
  have hgrid : inGrid w h (x, y) := ⟨hx, hy⟩
  have hdef : (bfs w h img (List.replicate (w * h) 0) [(sx, sy)]).getD (y * w + x) 0 =
      (bfs w h img (List.replicate (w * h) 0) [(sx, sy)]).getD (y * w + x) 1 :=
    getD_default_eq (by rw [hlen]; exact hidx (x, y) hgrid) 0 1
  rw [hdef]
  constructor
  · intro hmark
    exact bfs_sound w h img (reaches w h img (sx, sy))
      (fun p hp n hadj hfgn => Relation.ReflTransGen.tail hp ⟨hadj, hfgn⟩)
      _ _ _ rfl hq0
      (fun p hp _ => by
        rcases List.mem_cons.mp hp with hp | hp
        · subst hp
          exact Relation.ReflTransGen.refl
        · cases hp)
      (fun p hp hmp => absurd hmp (hout0 p hp))
      (x, y) hgrid hmark
  · intro hreach
    exact hmarks (x, y) hreach


theorem flood_fill_isolates_witness :
    (flood_fill 7 1 [1, 1, 0, 1, 1, 0, 1] (List.replicate (7 * 1) 0) 0 0).getD (0 * 7 + 1) 0 = 1 ↔
      reaches 7 1 [1, 1, 0, 1, 1, 0, 1] (0, 0) (1, 0) :=
  flood_fill_isolates 7 1 [1, 1, 0, 1, 1, 0, 1] 0 0 (by decide) (by decide) (by decide) 1 0
    (by decide) (by decide)

/-- Chebyshev norm of an integer offset. -/
def chebNorm (p : Int × Int) : Nat := max p.1.natAbs p.2.natAbs

/-- The nearest-seed scan as the spec words it: for each Chebyshev radius
ring r = 1, ..., 20 in turn, the ring pixels in raster order (the order
induced by the square scan).  This definition follows the specification
text and is proved equal to the code's square scan `nearestSeed` in
`nearest_seed_spec`. -/
def ringCandidates : List (Int × Int) :=
  (List.range 20).flatMap
    (fun r => (squareOffsets (r + 1)).filter (fun p => chebNorm p = r + 1))

/-- The spec's description of the nearest-seed search. -/
def ringSearchSeed (w h : Nat) (img : List Nat) (sx sy : Nat) : Option (Nat × Nat) :=
  (ringCandidates.find? (seedHit w h img sx sy)).map
    (fun p => (((sx : Int) + p.1).toNat, ((sy : Int) + p.2).toNat))

lemma chebNorm_le_of_mem {r : Nat} {p : Int × Int} (hp : p ∈ squareOffsets r) :
    chebNorm p ≤ r := by
  rw [mem_squareOffsets] at hp
  unfold chebNorm
  omega

lemma mem_squareOffsets_of_chebNorm {r : Nat} {p : Int × Int} (hp : chebNorm p ≤ r) :
    p ∈ squareOffsets r := by
  rw [mem_squareOffsets]
  unfold chebNorm at hp
  omega

lemma find?_filter_of_imp {α : Type} (l : List α) (p q : α → Bool)
    (himp : ∀ x ∈ l, p x = true → q x = true) :
    l.find? p = (l.filter q).find? p := by
  induction l with
  | nil => rfl
  | cons a t ih =>
    have hrec := ih (fun x hx hpx => himp x (List.mem_cons_of_mem _ hx) hpx)
    by_cases hpa : p a = true
    · have hqa := himp a (List.mem_cons_self _ _) hpa
      rw [List.find?_cons_of_pos _ hpa, List.filter_cons_of_pos hqa,
        List.find?_cons_of_pos _ hpa]
    · by_cases hqa : q a = true
      · rw [List.find?_cons_of_neg _ hpa, List.filter_cons_of_pos hqa,
          List.find?_cons_of_neg _ hpa]
        exact hrec
      · rw [List.find?_cons_of_neg _ hpa, List.filter_cons_of_neg hqa]
        exact hrec

lemma chebNorm_zero_iff {p : Int × Int} : chebNorm p = 0 ↔ p = (0, 0) := by
  rcases p with ⟨a, b⟩
  unfold chebNorm
  simp only [Prod.mk.injEq]
  omega

/-- The square scan and the ring scan find the same first hit, provided
the centre pixel is not a hit (which holds whenever the search runs,
because the search only runs on a background start pixel). -/
lemma seq_ring_find (w h : Nat) (img : List Nat) (sx sy : Nat)
    (hcenter : seedHit w h img sx sy (0, 0) = false) :
    ∀ n : Nat,
      ((List.range n).flatMap (fun r => squareOffsets (r + 1))).find?
          (seedHit w h img sx sy) =
        ((List.range n).flatMap
            (fun r => (squareOffsets (r + 1)).filter (fun p => chebNorm p = r + 1))).find?
          (seedHit w h img sx sy) ∧
      (((List.range n).flatMap (fun r => squareOffsets (r + 1))).find?
          (seedHit w h img sx sy) = none →
        ∀ p : Int × Int, chebNorm p ≤ n → seedHit w h img sx sy p = false) := by
  intro n
  induction n with
  | zero =>
    refine ⟨rfl, ?_⟩
    intro _ p hp
    have hp0 : p = (0, 0) := chebNorm_zero_iff.mp (by omega)
    rw [hp0]
    exact hcenter
  | succ n ih =>
    rw [List.range_succ, List.flatMap_append, List.flatMap_append]
    simp only [List.flatMap_cons, List.flatMap_nil, List.append_nil]
    rw [List.find?_append, List.find?_append]
    cases hfind : ((List.range n).flatMap (fun r => squareOffsets (r + 1))).find?
        (seedHit w h img sx sy) with
    | some v =>
      constructor
      · rw [← ih.1, hfind]
        rfl
      · intro hnone
        simp [Option.or] at hnone
    | none =>
      have hlow : ∀ p : Int × Int, chebNorm p ≤ n → seedHit w h img sx sy p = false :=
        ih.2 hfind
      have hrn : ((List.range n).flatMap
          (fun r => (squareOffsets (r + 1)).filter (fun p => chebNorm p = r + 1))).find?
          (seedHit w h img sx sy) = none := by
        rw [← ih.1]
        exact hfind
      have hsq : (squareOffsets (n + 1)).find? (seedHit w h img sx sy) =
          ((squareOffsets (n + 1)).filter (fun p => chebNorm p = n + 1)).find?
            (seedHit w h img sx sy) := by
        apply find?_filter_of_imp
        intro p hp hhit
        have hle := chebNorm_le_of_mem hp
        by_cases hn : chebNorm p ≤ n
        · rw [hlow p hn] at hhit
          cases hhit
        · simp only [decide_eq_true_eq]
          omega
      constructor
      · rw [hrn, hsq]
      · intro hnone p hp
        rw [Option.none_or] at hnone
        by_cases hn : chebNorm p ≤ n
        · exact hlow p hn
        · have hmem : p ∈ squareOffsets (n + 1) :=
            mem_squareOffsets_of_chebNorm (by omega)
          have := List.find?_eq_none.mp hnone p hmem
          simpa using this

/-- C8: when the (in-bounds) seed pixel is background, the code's
expanding-square nearest-seed search is exactly the spec's ring search
(ascending Chebyshev radius 1..20, raster order within each ring): both
pick the same first foreground pixel.  If a seed is found the flood fill
is seeded there; if none is found within the radius-20 cap the result is
the untouched all-background buffer.  (Determinism is immediate: the
search is a pure function of its arguments.) -/
theorem nearest_seed_spec (w h : Nat) (img : List Nat) (sx sy : Nat)
    (hsx : sx < w) (hsy : sy < h) (hbg : img.getD (sy * w + sx) 0 ≠ 1) :
    nearestSeed w h img sx sy = ringSearchSeed w h img sx sy ∧
    (∀ p : Nat × Nat, nearestSeed w h img sx sy = some p →
      flood_fill w h img (List.replicate (w * h) 0) sx sy =
        bfs w h img (List.replicate (w * h) 0) [p]) ∧
    (nearestSeed w h img sx sy = none →
      flood_fill w h img (List.replicate (w * h) 0) sx sy = List.replicate (w * h) 0) := by
  have hcenter : seedHit w h img sx sy (0, 0) = false := by
    unfold seedHit
    simp only [add_zero]
    have hidx : (((sy : Int)) * (w : Int) + ((sx : Int))).toNat = sy * w + sx := by
      rw [show ((sy : Int)) * (w : Int) + ((sx : Int)) = ((sy * w + sx : Nat) : Int) by
        push_cast
        ring]
      exact Int.toNat_natCast _
    rw [hidx]
    have hdec : decide (img.getD (sy * w + sx) 0 = 1) = false := decide_eq_false hbg
    simp only [hdec, Bool.and_false]
  refine ⟨?_, ?_, ?_⟩
  · unfold nearestSeed ringSearchSeed seedCandidates ringCandidates
    rw [(seq_ring_find w h img sx sy hcenter 20).1]
  · intro p hp
    unfold flood_fill
    rw [if_neg hbg, hp]
  · intro hn
    unfold flood_fill
    rw [if_neg hbg, hn]

theorem nearest_seed_spec_witness :
    nearestSeed 3 3 (List.replicate 9 0) 1 1 = ringSearchSeed 3 3 (List.replicate 9 0) 1 1 :=
  (nearest_seed_spec 3 3 (List.replicate 9 0) 1 1 (by decide) (by decide) (by decide)).1


/-- C6: for every click whose converted grid coordinates (normalized
click times width/height, truncated by the `as usize` cast) fall outside
the grid bounds, the refined output equals the eroded-then-dilated mask
with no isolation applied, composited per the §4.4 rule. -/
theorem refine_mask_oob_click (R : SubjectRefiner) (m : List ℚ) (cx cy : ℚ)
    (hm : m.length = R.width * R.height)
    (hoob : ¬ (f32ToUsize (cx * (R.width : ℚ)) < R.width ∧
               f32ToUsize (cy * (R.height : ℚ)) < R.height)) :
    (refine_mask R m cx cy).2 =
      compositeOf m
        (dilate R.width R.height (pipelineEroded R (updateHistory R m)) 5)
        (R.width * R.height) := by
  unfold refine_mask
  rw [if_neg (not_ne_iff.mpr hm)]
  simp only [if_neg hoob]

unseal Rat.mul Rat.add Rat.inv Rat.sub in
theorem refine_mask_oob_click_witness :
    (refine_mask (mkRefiner 1 1 1) [1] 2 0).2 =
      compositeOf [1]
        (dilate 1 1 (pipelineEroded (mkRefiner 1 1 1) (updateHistory (mkRefiner 1 1 1) [1])) 5)
        (1 * 1) :=
  refine_mask_oob_click (mkRefiner 1 1 1) [1] 2 0 (by decide) (by decide)


lemma getD_replicate_zero {n i : Nat} : (List.replicate n (0 : Nat)).getD i 0 = 0 := by
  rw [getD_replicate]
  split <;> rfl

lemma compositeOf_replicate_zero (input : List ℚ) (n size : Nat) :
    compositeOf input (List.replicate n 0) size = List.replicate size 0 := by
  unfold compositeOf
  refine List.eq_replicate.mpr ⟨by simp, ?_⟩
  intro b hb
  obtain ⟨i, _, hbi⟩ := List.mem_map.mp hb
  rw [← hbi, getD_replicate_zero]
  simp

/-- Membership in the nearest-seed candidate list bounds the Chebyshev
norm of the offset by 20. -/
lemma chebNorm_le_of_mem_seedCandidates {p : Int × Int} (hp : p ∈ seedCandidates) :
    chebNorm p ≤ 20 := by
  unfold seedCandidates at hp
  obtain ⟨r, hr, hpr⟩ := List.mem_flatMap.mp hp
  rw [List.mem_range] at hr
  exact le_trans (chebNorm_le_of_mem hpr) (by omega)

/-- If no in-grid pixel within Chebyshev distance 20 of the start pixel
is foreground, the nearest-seed search fails. -/
lemma nearestSeed_eq_none {w h : Nat} {img : List Nat} {sx sy : Nat}
    (hfar : ∀ x : Nat, x < w → ∀ y : Nat, y < h →
      ((x : Int) - (sx : Int)).natAbs ≤ 20 → ((y : Int) - (sy : Int)).natAbs ≤ 20 →
      img.getD (y * w + x) 0 ≠ 1) :
    nearestSeed w h img sx sy = none := by
  unfold nearestSeed
  rw [List.find?_eq_none.mpr ?hall]
  · rfl
  case hall =>
    intro p hp hhit
    have hcheb := chebNorm_le_of_mem_seedCandidates hp
    unfold seedHit at hhit
    simp only [Bool.and_eq_true, decide_eq_true_eq] at hhit
    obtain ⟨⟨⟨⟨h1, h2⟩, h3⟩, h4⟩, h5⟩ := hhit
    obtain ⟨hidx, _⟩ := toNat_pix_eq h1 h2 h3 h4
    rw [hidx] at h5
    refine hfar ((sx : Int) + p.1).toNat (by omega) ((sy : Int) + p.2).toNat (by omega)
      ?_ ?_ h5
    · unfold chebNorm at hcheb
      omega
    · unfold chebNorm at hcheb
      omega

/-- When the converted click is in bounds, its pixel is background in
the eroded mask, and no eroded-foreground pixel lies within Chebyshev
distance 20 of it, the nearest-seed search fails, the isolated stage is
all-background and the final output is the all-zero mask. -/
lemma refine_mask_bg_seed_no_nearby_aux (R : SubjectRefiner) (m : List ℚ) (cx cy : ℚ)
    (hm : m.length = R.width * R.height)
    (hclx : f32ToUsize (cx * (R.width : ℚ)) < R.width)
    (hcly : f32ToUsize (cy * (R.height : ℚ)) < R.height)
    (hfar : ∀ x : Nat, x < R.width → ∀ y : Nat, y < R.height →
      ((x : Int) - (f32ToUsize (cx * (R.width : ℚ)) : Int)).natAbs ≤ 20 →
      ((y : Int) - (f32ToUsize (cy * (R.height : ℚ)) : Int)).natAbs ≤ 20 →
      (pipelineEroded R (updateHistory R m)).getD (y * R.width + x) 0 ≠ 1) :
    (refine_mask R m cx cy).2 = List.replicate (R.width * R.height) 0 := by
  have hbg : (pipelineEroded R (updateHistory R m)).getD
      (f32ToUsize (cy * (R.height : ℚ)) * R.width + f32ToUsize (cx * (R.width : ℚ))) 0 ≠ 1 :=
    hfar _ hclx _ hcly (by omega) (by omega)
  have hnone : nearestSeed R.width R.height (pipelineEroded R (updateHistory R m))
      (f32ToUsize (cx * (R.width : ℚ))) (f32ToUsize (cy * (R.height : ℚ))) = none :=
    nearestSeed_eq_none hfar
  have hff := (nearest_seed_spec R.width R.height (pipelineEroded R (updateHistory R m))
    (f32ToUsize (cx * (R.width : ℚ))) (f32ToUsize (cy * (R.height : ℚ)))
    hclx hcly hbg).2.2 hnone
  unfold refine_mask
  rw [if_neg (not_ne_iff.mpr hm)]
  simp only [if_pos (And.intro hclx hcly)]
  rw [hff]
  rw [dilate_of_zero (fun i => by rw [getD_replicate_zero]; omega)]
  rw [List.length_replicate]
  exact compositeOf_replicate_zero m _ _

/-- C7 (amended): for an in-bounds click whose seed pixel is background
in the eroded mask, the pipeline does not fall back to the full eroded
mask; it runs the nearest-seed search (Chebyshev radius at most 20), and
when no foreground pixel lies within that range of the seed the isolated
stage is all-background, so the final output is the all-zero mask. -/
theorem refine_mask_bg_seed_no_nearby (R : SubjectRefiner) (m : List ℚ) (cx cy : ℚ)
    (hm : m.length = R.width * R.height)
    (hclx : f32ToUsize (cx * (R.width : ℚ)) < R.width)
    (hcly : f32ToUsize (cy * (R.height : ℚ)) < R.height)
    (hfar : ∀ x : Nat, x < R.width → ∀ y : Nat, y < R.height →
      ((x : Int) - (f32ToUsize (cx * (R.width : ℚ)) : Int)).natAbs ≤ 20 →
      ((y : Int) - (f32ToUsize (cy * (R.height : ℚ)) : Int)).natAbs ≤ 20 →
      (pipelineEroded R (updateHistory R m)).getD (y * R.width + x) 0 ≠ 1) :
    (refine_mask R m cx cy).2 = List.replicate (R.width * R.height) 0 :=
  refine_mask_bg_seed_no_nearby_aux R m cx cy hm hclx hcly hfar


/-- Input mask for the C7 witness scenario: a 27 x 11 grid whose left
11 x 11 block has confidence 0.8 and which is zero elsewhere.  Erosion
with radius 5 leaves exactly the pixel (5, 5) foreground, which is more
than Chebyshev distance 20 from the clicked corner pixel (26, 10). -/
def c7FarMask : List ℚ := (List.range (27 * 11)).map
  (fun i => if i % 27 ≤ 10 then 8 / 10 else 0)

unseal Rat.mul Rat.add Rat.inv Rat.sub in
theorem refine_mask_bg_seed_no_nearby_witness :
    (refine_mask (mkRefiner 27 11 1) c7FarMask (26 / 27) (10 / 11)).2 =
      List.replicate (27 * 11) 0 :=
  refine_mask_bg_seed_no_nearby (mkRefiner 27 11 1) c7FarMask (26 / 27) (10 / 11)
    (by decide) (by decide) (by decide) (by decide)

/-- Input mask for the C7 counterexample: a 23 x 11 grid of confidence
0.8 split by the background column 11, so erosion with radius 5 leaves
two foreground pixels (5, 5) and (17, 5) in separate components. -/
def c7Mask : List ℚ := (List.range (23 * 11)).map
  (fun i => if i % 23 = 11 then 0 else 8 / 10)

unseal Rat.mul Rat.add Rat.inv Rat.sub in
/-- C7 as stated fails on the code: clicking the in-bounds background
pixel (0, 0) does not fall back to the full eroded mask — the nearest
seed search reaches (5, 5) and isolates only its component, so the pixel
(17, 5) (index 132) is dropped while the claimed eroded-then-dilated
composite keeps its 0.8 value there. -/
theorem refine_mask_bg_seed_counterexample :
    f32ToUsize ((0 : ℚ) * ((23 : Nat) : ℚ)) < 23 ∧
    f32ToUsize ((0 : ℚ) * ((11 : Nat) : ℚ)) < 11 ∧
    (pipelineEroded (mkRefiner 23 11 1) (updateHistory (mkRefiner 23 11 1) c7Mask)).getD
      (0 * 23 + 0) 0 ≠ 1 ∧
    (refine_mask (mkRefiner 23 11 1) c7Mask 0 0).2 ≠
      compositeOf c7Mask
        (dilate 23 11
          (pipelineEroded (mkRefiner 23 11 1) (updateHistory (mkRefiner 23 11 1) c7Mask)) 5)
        (23 * 11) := by
  have h4 : ((refine_mask (mkRefiner 23 11 1) c7Mask 0 0).2).getD 132 0 = 0 := by decide
  have h5 : (compositeOf c7Mask
      (dilate 23 11
        (pipelineEroded (mkRefiner 23 11 1) (updateHistory (mkRefiner 23 11 1) c7Mask)) 5)
      (23 * 11)).getD 132 0 = 8 / 10 := by decide
  refine ⟨by decide, by decide, by decide, ?_⟩
  intro heq
  rw [heq] at h4
  rw [h4] at h5
  norm_num at h5


/-- The C9 scenario input: 10 x 10 grid, all zeros except a centred 6 x 6
block (x, y in 2..7) of confidence 0.8. -/
def c9Mask : List ℚ := (List.range (10 * 10)).map
  (fun i => if 2 ≤ i % 10 ∧ i % 10 ≤ 7 ∧ 2 ≤ i / 10 ∧ i / 10 ≤ 7 then 8 / 10 else 0)

unseal Rat.mul Rat.add Rat.inv Rat.sub in
/-- C9 as stated fails on the code: in the 10 x 10, max_history = 1
scenario with a centre click, the output retains no 0.8 value at all —
it is the all-zero mask — although the input holds 0.8 at the clicked
centre.  With kernel radius 5 on a 10 x 10 grid every pixel is within
radius 5 of a border, so erosion erases the entire block (the block side
6 is also smaller than the kernel diameter 11). -/
theorem refine_end_to_end_counterexample :
    c9Mask.getD (5 * 10 + 5) 0 = 8 / 10 ∧
    (refine_mask (mkRefiner 10 10 1) c9Mask (1 / 2) (1 / 2)).2 =
      List.replicate (10 * 10) 0 ∧
    (8 / 10 : ℚ) ∉ (refine_mask (mkRefiner 10 10 1) c9Mask (1 / 2) (1 / 2)).2 := by
  have heq : (refine_mask (mkRefiner 10 10 1) c9Mask (1 / 2) (1 / 2)).2 =
      List.replicate (10 * 10) 0 :=
    refine_mask_bg_seed_no_nearby_aux (mkRefiner 10 10 1) c9Mask (1 / 2) (1 / 2)
      (by decide) (by decide) (by decide) (by decide)
  refine ⟨by decide, heq, ?_⟩
  rw [heq]
  decide

unseal Rat.mul Rat.add Rat.inv Rat.sub in
/-- C9 (amended): in the end-to-end scenario (width 10, height 10,
max_history 1, centred 6 x 6 block of 0.8, click at the centre) the
returned mask is all zeros: the fixed kernel radius 5 erodes every pixel
of a 10 x 10 grid away, so no sub-region of the block is preserved. -/
theorem refine_end_to_end_all_zero :
    (refine_mask (mkRefiner 10 10 1) c9Mask (1 / 2) (1 / 2)).2 =
      List.replicate (10 * 10) 0 :=
  refine_mask_bg_seed_no_nearby_aux (mkRefiner 10 10 1) c9Mask (1 / 2) (1 / 2)
    (by decide) (by decide) (by decide) (by decide)

/-- Checked list mapping used by the `Option`-valued embedding: fails as
soon as one element read fails. -/
def listMapM {α β : Type} (f : α → Option β) : List α → Option (List β)
  | [] => some []
  | a :: l => (f a).bind (fun b => (listMapM f l).map (fun bs => b :: bs))

lemma listMapM_eq_some {α β : Type} (f : α → Option β) (g : α → β) :
    ∀ l : List α, (∀ a ∈ l, f a = some (g a)) → listMapM f l = some (l.map g) := by
  intro l
  induction l with
  | nil => intro _; rfl
  | cons a t ih =>
    intro hall
    unfold listMapM
    rw [hall a (List.mem_cons_self _ _), ih (fun x hx => hall x (List.mem_cons_of_mem _ hx))]
    rfl

lemma getElem?_eq_some_getD {α : Type} [Inhabited α] {l : List α} {i : Nat} {d : α}
    (hi : i < l.length) : l[i]? = some (l.getD i d) := by
  rw [List.getElem?_eq_getElem hi, List.getD_eq_getElem _ _ hi]

/-- The averaging loop with every history read checked (`h[i]` in
lines 48-52 of the source). -/
def averagedOfChecked (hist : List (List ℚ)) (size : Nat) : Option (List ℚ) :=
  listMapM (fun i => (listMapM (fun hm => hm[i]?) hist).map
    (fun vs => (vs.map (fun v => v / (hist.length : ℚ))).sum)) (List.range size)

lemma averagedOfChecked_eq {hist : List (List ℚ)} {size : Nat}
    (hh : ∀ hm ∈ hist, size ≤ (hm : List ℚ).length) :
    averagedOfChecked hist size = some (averagedOf hist size) := by
  unfold averagedOfChecked averagedOf
  apply listMapM_eq_some
  intro i hi
  rw [List.mem_range] at hi
  dsimp only
  rw [listMapM_eq_some (fun hm => hm[i]?) (fun hm => hm.getD i 0) hist
    (fun hm hmem => getElem?_eq_some_getD (by have := hh hm hmem; omega))]
  simp only [Option.map_some']
  congr 1
  rw [List.map_map]
  rfl

/-- The thresholding loop with the `averaged_mask[i]` read checked
(lines 58-62). -/
def thresholdMaskChecked (size : Nat) (avg : List ℚ) : Option (List Nat) :=
  listMapM (fun i => (avg[i]?).map (fun v => if 1 / 2 < v then 1 else 0)) (List.range size)

lemma thresholdMaskChecked_eq {size : Nat} {avg : List ℚ} (hA : size ≤ avg.length) :
    thresholdMaskChecked size avg = some (thresholdMask size avg) := by
  unfold thresholdMaskChecked thresholdMask
  apply listMapM_eq_some
  intro i hi
  rw [List.mem_range] at hi
  dsimp only
  rw [getElem?_eq_some_getD (d := 0) (by omega)]
  rfl

/-- One erosion pixel with every in-bounds image read checked
(line 109 of the source; out-of-bounds offsets perform no read). -/
def erodePixChecked (w h : Nat) (img : List Nat) (radius : Nat) (x y : Int) : Option Nat :=
  (listMapM (fun (p : Int × Int) =>
    if p.1 * p.1 + p.2 * p.2 ≤ (radius : Int) * (radius : Int) then
      let nx := x + p.1
      let ny := y + p.2
      if 0 ≤ nx ∧ nx < (w : Int) ∧ 0 ≤ ny ∧ ny < (h : Int) then
        (img[(ny * (w : Int) + nx).toNat]?).map (fun v => decide (v ≠ 0))
      else some false
    else some true) (squareOffsets radius)).map
    (fun bs => if bs.all id then 1 else 0)

lemma all_map_id {α : Type} (l : List α) (g : α → Bool) : (l.map g).all id = l.all g := by
  induction l with
  | nil => rfl
  | cons a t ih =>
    simp only [List.map_cons, List.all_cons, ih]
    rfl

lemma erodePixChecked_eq {w h : Nat} {img : List Nat} {radius : Nat} {x y : Int}
    (himg : h * w ≤ img.length) :
    erodePixChecked w h img radius x y = some (erodePix w h img radius x y) := by
  unfold erodePixChecked erodePix
  rw [listMapM_eq_some _ (fun (p : Int × Int) =>
    if p.1 * p.1 + p.2 * p.2 ≤ (radius : Int) * (radius : Int) then
      let nx := x + p.1
      let ny := y + p.2
      decide (0 ≤ nx) && decide (nx < (w : Int)) &&
      decide (0 ≤ ny) && decide (ny < (h : Int)) &&
      decide (img.getD (ny * (w : Int) + nx).toNat 0 ≠ 0)
    else true) _ ?reads]
  · simp only [Option.map_some']
    rw [all_map_id]
  case reads =>
    intro p _
    dsimp only
    by_cases hdisk : p.1 * p.1 + p.2 * p.2 ≤ (radius : Int) * (radius : Int)
    · rw [if_pos hdisk, if_pos hdisk]
      by_cases hb : 0 ≤ x + p.1 ∧ x + p.1 < (w : Int) ∧ 0 ≤ y + p.2 ∧ y + p.2 < (h : Int)
      · obtain ⟨h1, h2, h3, h4⟩ := hb
        rw [if_pos ⟨h1, h2, h3, h4⟩]
        obtain ⟨hidx, hlt⟩ := toNat_pix_eq h1 h2 h3 h4
        rw [getElem?_eq_some_getD (d := 0) (by omega)]
        simp only [Option.map_some']
        congr 1
        rw [decide_eq_true h1, decide_eq_true h2, decide_eq_true h3, decide_eq_true h4]
        simp
      · rw [if_neg hb]
        congr 1
        rcases not_and_or.mp hb with hc | hb2
        · rw [decide_eq_false hc]
          simp
        · rcases not_and_or.mp hb2 with hc | hb3
          · rw [decide_eq_false hc]
            simp
          · rcases not_and_or.mp hb3 with hc | hc
            · rw [decide_eq_false hc]
              simp
            · rw [decide_eq_false hc]
              simp
    · rw [if_neg hdisk, if_neg hdisk]

/-- Checked erosion: every pixel of the row-major output. -/
def erodeChecked (w h : Nat) (img : List Nat) (radius : Nat) : Option (List Nat) :=
  listMapM
    (fun i => erodePixChecked w h img radius ((i % w : Nat) : Int) ((i / w : Nat) : Int))
    (List.range (h * w))

lemma erodeChecked_eq {w h : Nat} {img : List Nat} {radius : Nat}
    (himg : h * w ≤ img.length) :
    erodeChecked w h img radius = some (erode w h img radius) := by
  unfold erodeChecked erode
  exact listMapM_eq_some _ _ _ (fun i _ => erodePixChecked_eq himg)


/-- The checked write loop of `dilate`: Rust `out[idx] = 1` panics when
`idx` is out of bounds, so the checked fold fails there. -/
def applyWritesChecked : List Nat → List Nat → Option (List Nat)
  | [], out => some out
  | j :: ws, out => if j < out.length then applyWritesChecked ws (out.set j 1) else none

lemma applyWritesChecked_eq : ∀ (ws out : List Nat), (∀ j ∈ ws, j < out.length) →
    applyWritesChecked ws out = some (ws.foldl (fun o j => o.set j 1) out) := by
  intro ws
  induction ws with
  | nil => intro out _; rfl
  | cons j ws ih =>
    intro out hall
    unfold applyWritesChecked
    rw [if_pos (hall j (List.mem_cons_self _ _))]
    rw [ih _ (fun i hi => by rw [List.length_set]; exact hall i (List.mem_cons_of_mem _ hi))]
    rfl

/-- `SubjectRefiner::dilate` with the source-pixel reads (line 131) and
the neighbour writes (line 138) checked. -/
def dilateChecked (w h : Nat) (img : List Nat) (radius : Nat) : Option (List Nat) :=
  (listMapM (fun (p : Nat × Nat) => (img[p.2 * w + p.1]?).map
      (fun v => if v = 1 then dilatePixWrites w h radius p.1 p.2 else []))
    ((List.range h).flatMap (fun y => (List.range w).map (fun x => (x, y))))).bind
    (fun wss => applyWritesChecked wss.flatten (List.replicate img.length 0))

lemma mem_pixelScan {w h : Nat} {p : Nat × Nat}
    (hp : p ∈ (List.range h).flatMap (fun y => (List.range w).map (fun x => (x, y)))) :
    p.1 < w ∧ p.2 < h := by
  obtain ⟨y, hy, hmem⟩ := List.mem_flatMap.mp hp
  obtain ⟨x, hx, heq⟩ := List.mem_map.mp hmem
  rw [List.mem_range] at hy hx
  cases heq
  exact ⟨hx, hy⟩

lemma dilateChecked_eq {w h : Nat} {img : List Nat} {radius : Nat}
    (himg : img.length = h * w) :
    dilateChecked w h img radius = some (dilate w h img radius) := by
  unfold dilateChecked dilate dilateWrites
  rw [listMapM_eq_some _ (fun (p : Nat × Nat) =>
      if img.getD (p.2 * w + p.1) 0 = 1 then dilatePixWrites w h radius p.1 p.2 else []) _
    ?reads]
  · simp only [Option.some_bind]
    rw [← List.flatMap_def]
    exact applyWritesChecked_eq _ _
      (fun j hj => by rw [List.length_replicate, himg]; exact dilateWrites_lt hj)
  case reads =>
    intro p hp
    obtain ⟨hx, hy⟩ := mem_pixelScan hp
    dsimp only
    rw [getElem?_eq_some_getD (d := 0) (by rw [himg]; exact pixIdx_lt hx hy)]
    rfl

/-- The nearest-seed search with its in-bounds image reads (line 170)
checked. -/
def findSeedChecked (w h : Nat) (img : List Nat) (sx sy : Nat) :
    List (Int × Int) → Option (Option (Nat × Nat))
  | [] => some none
  | p :: rest =>
    let nx := (sx : Int) + p.1
    let ny := (sy : Int) + p.2
    if 0 ≤ nx ∧ nx < (w : Int) ∧ 0 ≤ ny ∧ ny < (h : Int) then
      (img[(ny * (w : Int) + nx).toNat]?).bind
        (fun v => if v = 1 then some (some (nx.toNat, ny.toNat))
          else findSeedChecked w h img sx sy rest)
    else findSeedChecked w h img sx sy rest

lemma findSeedChecked_eq {w h : Nat} {img : List Nat} {sx sy : Nat}
    (himg : h * w ≤ img.length) :
    ∀ l : List (Int × Int), findSeedChecked w h img sx sy l =
      some ((l.find? (seedHit w h img sx sy)).map
        (fun p => (((sx : Int) + p.1).toNat, ((sy : Int) + p.2).toNat))) := by
  intro l
  induction l with
  | nil => rfl
  | cons p rest ih =>
    unfold findSeedChecked
    by_cases hb : 0 ≤ (sx : Int) + p.1 ∧ (sx : Int) + p.1 < (w : Int) ∧
        0 ≤ (sy : Int) + p.2 ∧ (sy : Int) + p.2 < (h : Int)
    · obtain ⟨h1, h2, h3, h4⟩ := hb
      rw [if_pos ⟨h1, h2, h3, h4⟩]
      obtain ⟨hidx, hlt⟩ := toNat_pix_eq h1 h2 h3 h4
      rw [getElem?_eq_some_getD (d := 0) (by omega)]
      simp only [Option.some_bind]
      by_cases hv : img.getD (((sy : Int) + p.2) * (w : Int) + ((sx : Int) + p.1)).toNat 0 = 1
      · rw [if_pos hv]
        have hhit : seedHit w h img sx sy p = true := by
          unfold seedHit
          dsimp only
          rw [decide_eq_true h1, decide_eq_true h2, decide_eq_true h3, decide_eq_true h4,
            decide_eq_true hv]
          rfl
        rw [List.find?_cons_of_pos _ hhit]
        rfl
      · rw [if_neg hv]
        have hhit : ¬ seedHit w h img sx sy p = true := by
          unfold seedHit
          dsimp only
          rw [decide_eq_false hv]
          simp
        rw [List.find?_cons_of_neg _ hhit]
        exact ih
    · rw [if_neg hb]
      have hhit : ¬ seedHit w h img sx sy p = true := by
        unfold seedHit
        simp only [Bool.and_eq_true, decide_eq_true_eq]
        tauto
      rw [List.find?_cons_of_neg _ hhit]
      exact ih

/-- The BFS loop with its unchecked reads `out[idx]`, `img[idx]`
(line 186) checked; same fuel discipline as `bfsFuel`. -/
def bfsCheckedFuel (w h : Nat) (img : List Nat) :
    Nat → List Nat → List (Nat × Nat) → Option (List Nat)
  | 0, out, _ => some out
  | _ + 1, out, [] => some out
  | fuel + 1, out, (x, y) :: q =>
    (out[y * w + x]?).bind (fun o => (img[y * w + x]?).bind (fun v =>
      if o = 0 ∧ v = 1 then
        bfsCheckedFuel w h img fuel (out.set (y * w + x) 1) (q ++ nbrs w h x y)
      else
        bfsCheckedFuel w h img fuel out q))

lemma bfsCheckedFuel_eq (w h : Nat) (img : List Nat) (himg : img.length = h * w) :
    ∀ (fuel : Nat) (out : List Nat) (q : List (Nat × Nat)), out.length = h * w →
      (∀ p ∈ q, inGrid w h p) →
      bfsCheckedFuel w h img fuel out q = some (bfsFuel w h img fuel out q) := by
  intro fuel
  induction fuel with
  | zero => intros; rfl
  | succ f ih =>
    intro out q hlen hq
    cases q with
    | nil => rfl
    | cons hd q' =>
      obtain ⟨x, y⟩ := hd
      have hin : inGrid w h (x, y) := hq _ (List.mem_cons_self _ _)
      have hidx : y * w + x < h * w := pixIdx_lt hin.1 hin.2
      show (out[y * w + x]?).bind (fun o => (img[y * w + x]?).bind (fun v =>
          if o = 0 ∧ v = 1 then
            bfsCheckedFuel w h img f (out.set (y * w + x) 1) (q' ++ nbrs w h x y)
          else
            bfsCheckedFuel w h img f out q')) = _
      rw [getElem?_eq_some_getD (d := 1) (by omega), getElem?_eq_some_getD (d := 0) (by omega)]
      simp only [Option.some_bind]
      show _ = some
        (if out.getD (y * w + x) 1 = 0 ∧ img.getD (y * w + x) 0 = 1 then
          bfsFuel w h img f (out.set (y * w + x) 1) (q' ++ nbrs w h x y)
        else bfsFuel w h img f out q')
      split
      · rename_i hcond
        exact ih _ _ (by rw [List.length_set]; exact hlen)
          (fun r hr => by
            rcases List.mem_append.mp hr with hr | hr
            · exact hq r (List.mem_cons_of_mem _ hr)
            · exact ((mem_nbrs hin.1 hin.2).mp hr).2)
      · rename_i hcond
        exact ih _ _ hlen (fun r hr => hq r (List.mem_cons_of_mem _ hr))

/-- `SubjectRefiner::flood_fill` with the start-pixel read (line 158)
and all loop reads checked. -/
def flood_fillChecked (w h : Nat) (img : List Nat) (out : List Nat) (sx sy : Nat) :
    Option (List Nat) :=
  (img[sy * w + sx]?).bind (fun v =>
    if v = 1 then bfsCheckedFuel w h img (bfsMeasure out [(sx, sy)]) out [(sx, sy)]
    else
      (findSeedChecked w h img sx sy seedCandidates).bind (fun r =>
        match r with
        | some p => bfsCheckedFuel w h img (bfsMeasure out [p]) out [p]
        | none => some out))

lemma flood_fillChecked_eq {w h : Nat} {img out : List Nat} {sx sy : Nat}
    (himg : img.length = h * w) (hout : out.length = h * w)
    (hsx : sx < w) (hsy : sy < h) :
    flood_fillChecked w h img out sx sy = some (flood_fill w h img out sx sy) := by
  unfold flood_fillChecked flood_fill
  have hidx : sy * w + sx < h * w := pixIdx_lt hsx hsy
  rw [getElem?_eq_some_getD (d := 0) (by omega)]
  simp only [Option.some_bind]
  by_cases hv : img.getD (sy * w + sx) 0 = 1
  · rw [if_pos hv, if_pos hv]
    exact bfsCheckedFuel_eq w h img himg _ _ _ hout
      (fun p hp => by
        rcases List.mem_cons.mp hp with hp | hp
        · subst hp
          exact ⟨hsx, hsy⟩
        · cases hp)
  · rw [if_neg hv, if_neg hv]
    rw [findSeedChecked_eq (by omega) seedCandidates]
    simp only [Option.some_bind]
    show _ = some
      (match nearestSeed w h img sx sy with
        | some p => bfs w h img out [p]
        | none => out)
    unfold nearestSeed
    cases hfind : seedCandidates.find? (seedHit w h img sx sy) with
    | none => rfl
    | some p =>
      simp only [Option.map_some']
      have hhit := List.find?_some hfind
      unfold seedHit at hhit
      simp only [Bool.and_eq_true, decide_eq_true_eq] at hhit
      obtain ⟨⟨⟨⟨h1, h2⟩, h3⟩, h4⟩, _⟩ := hhit
      exact bfsCheckedFuel_eq w h img himg _ _ _ hout
        (fun r hr => by
          rcases List.mem_cons.mp hr with hr | hr
          · subst hr
            exact ⟨by omega, by omega⟩
          · cases hr)

/-- The compositing loop with the `dilated[i]` and `input_mask[i]` reads
(line 85) checked; `&&` short-circuits, so `input_mask[i]` is read only
when `dilated[i] > 0`. -/
def compositeChecked (input : List ℚ) (dilated : List Nat) (size : Nat) :
    Option (List ℚ) :=
  listMapM (fun i => (dilated[i]?).bind (fun dv =>
    if 0 < dv then (input[i]?).map (fun iv => if 1 / 10 < iv then iv else 0)
    else some 0)) (List.range size)

lemma compositeChecked_eq {input : List ℚ} {dilated : List Nat} {size : Nat}
    (hd : size ≤ dilated.length) (hi : size ≤ input.length) :
    compositeChecked input dilated size = some (compositeOf input dilated size) := by
  unfold compositeChecked compositeOf
  apply listMapM_eq_some
  intro i him
  rw [List.mem_range] at him
  dsimp only
  rw [getElem?_eq_some_getD (d := 0) (by omega)]
  simp only [Option.some_bind]
  by_cases hdv : 0 < dilated.getD i 0
  · rw [if_pos hdv]
    rw [getElem?_eq_some_getD (d := 0) (by omega)]
    simp only [Option.map_some']
    by_cases hiv : 1 / 10 < input.getD i 0
    · rw [if_pos hiv, if_pos ⟨hdv, hiv⟩]
    · rw [if_neg hiv, if_neg (by tauto)]
  · rw [if_neg hdv, if_neg (by tauto)]


lemma averagedOf_length {hist : List (List ℚ)} {size : Nat} :
    (averagedOf hist size).length = size := by
  simp [averagedOf]

lemma thresholdMask_length {size : Nat} {avg : List ℚ} :
    (thresholdMask size avg).length = size := by
  simp [thresholdMask]

lemma compositeOf_length {input : List ℚ} {dilated : List Nat} {size : Nat} :
    (compositeOf input dilated size).length = size := by
  simp [compositeOf]

lemma updateHistory_mem_length {R : SubjectRefiner} {m : List ℚ}
    (hh : ∀ x ∈ R.history, (x : List ℚ).length = R.width * R.height)
    (hm : m.length = R.width * R.height) :
    ∀ x ∈ updateHistory R m, (x : List ℚ).length = R.width * R.height := by
  intro x hx
  unfold updateHistory at hx
  dsimp only at hx
  split at hx
  · have hx2 := List.mem_of_mem_tail hx
    rcases List.mem_append.mp hx2 with hx3 | hx3
    · exact hh x hx3
    · rw [List.mem_singleton.mp hx3]
      exact hm
  · rcases List.mem_append.mp hx with hx3 | hx3
    · exact hh x hx3
    · rw [List.mem_singleton.mp hx3]
      exact hm

lemma flood_fill_length {w h : Nat} {img out : List Nat} {sx sy : Nat} :
    (flood_fill w h img out sx sy).length = out.length := by
  unfold flood_fill
  split
  · exact bfs_length w h img _ _ _ rfl
  · cases hns : nearestSeed w h img sx sy with
    | none => rfl
    | some p => exact bfs_length w h img _ _ _ rfl

/-- `SubjectRefiner::refine_mask` with every array access checked: each
read or write that the Rust code performs without a bounds check is
performed through an `Option`-valued access, so this function returns
`none` exactly when some access in the Rust code would be out of bounds
and panic. -/
def refine_maskChecked (R : SubjectRefiner) (input_mask : List ℚ) (click_x click_y : ℚ) :
    Option (SubjectRefiner × List ℚ) :=
  if input_mask.length ≠ R.width * R.height then some (R, input_mask)
  else
    let hist := updateHistory R input_mask
    (averagedOfChecked hist (R.width * R.height)).bind (fun avg =>
    (thresholdMaskChecked (R.width * R.height) avg).bind (fun bin =>
    (erodeChecked R.width R.height bin 5).bind (fun eroded =>
    let clx := f32ToUsize (click_x * (R.width : ℚ))
    let cly := f32ToUsize (click_y * (R.height : ℚ))
    (if clx < R.width ∧ cly < R.height then
        flood_fillChecked R.width R.height eroded
          (List.replicate (R.width * R.height) 0) clx cly
      else some eroded).bind (fun isolated =>
    (dilateChecked R.width R.height isolated 5).bind (fun dilated =>
    (compositeChecked input_mask dilated (R.width * R.height)).map (fun final =>
      ({ R with history := hist }, final)))))))

/-- C10: for every valid-size input mask and every click coordinate pair
(negative or greater-than-one values included; a NaN click converts to
grid coordinate 0, which the universally quantified rational click also
reaches), `refine_mask` performs only in-bounds array accesses — the
fully checked variant succeeds and agrees with the unchecked embedding —
and the returned mask always has length `width * height`. -/
theorem refine_mask_no_panic (R : SubjectRefiner) (m : List ℚ) (cx cy : ℚ)
    (hh : ∀ x ∈ R.history, (x : List ℚ).length = R.width * R.height)
    (hm : m.length = R.width * R.height) :
    refine_maskChecked R m cx cy = some (refine_mask R m cx cy) ∧
    (refine_mask R m cx cy).2.length = R.width * R.height := by
  have hwh : R.width * R.height = R.height * R.width := Nat.mul_comm _ _
  have hhist := updateHistory_mem_length hh hm
  constructor
  · unfold refine_maskChecked refine_mask
    rw [if_neg (not_ne_iff.mpr hm), if_neg (not_ne_iff.mpr hm)]
    dsimp only
    rw [averagedOfChecked_eq (fun x hx => le_of_eq (hhist x hx).symm)]
    simp only [Option.some_bind]
    rw [thresholdMaskChecked_eq (le_of_eq averagedOf_length.symm)]
    simp only [Option.some_bind]
    rw [erodeChecked_eq (le_of_eq (by rw [thresholdMask_length]; exact hwh.symm))]
    simp only [Option.some_bind]
    by_cases hcl : f32ToUsize (cx * (R.width : ℚ)) < R.width ∧
        f32ToUsize (cy * (R.height : ℚ)) < R.height
    · rw [if_pos hcl, if_pos hcl]
      rw [flood_fillChecked_eq erode_length
        (by rw [List.length_replicate]; exact hwh) hcl.1 hcl.2]
      simp only [Option.some_bind]
      rw [dilateChecked_eq (by rw [flood_fill_length, List.length_replicate]; exact hwh)]
      simp only [Option.some_bind]
      rw [compositeChecked_eq
        (le_of_eq (by rw [dilate_length, flood_fill_length, List.length_replicate]))
        (le_of_eq hm.symm)]
      rfl
    · rw [if_neg hcl, if_neg hcl]
      simp only [Option.some_bind]
      rw [dilateChecked_eq erode_length]
      simp only [Option.some_bind]
      rw [compositeChecked_eq
        (le_of_eq (by rw [dilate_length, erode_length]; exact hwh))
        (le_of_eq hm.symm)]
      rfl
  · unfold refine_mask
    rw [if_neg (not_ne_iff.mpr hm)]
    exact compositeOf_length

unseal Rat.mul Rat.add Rat.inv Rat.sub in
theorem refine_mask_no_panic_witness :
    refine_maskChecked (mkRefiner 1 1 1) [1] 2 2 =
      some (refine_mask (mkRefiner 1 1 1) [1] 2 2) ∧
    (refine_mask (mkRefiner 1 1 1) [1] 2 2).2.length = 1 * 1 :=
  refine_mask_no_panic (mkRefiner 1 1 1) [1] 2 2 (by decide) (by decide)


end MaskRefine
